import Mathlib

/-!
Shallow embedding of the momiom/workflow repository: the node package
(the Node interface with its TextNode and LLMNode implementations) and
the dag package (DAG, AddNode, AddEdge, GetLeafNodes, Execute).

Modelling conventions:
* Go maps are association lists (`mapGet`/`mapSet`), read first-binding-wins
  and written replace-or-append, matching Go map semantics for the unique
  keys the code maintains; a read of a missing key yields the Go zero value
  via `Option.getD`.
* Go `error` values are `String`s (the message built by `fmt.Errorf`).
* The goroutine interleavings of `Execute` are made explicit: the body of
  `execNode` is cut at its synchronisation points into atomic small steps
  (semaphore acquire, the `updateNodeStatus(Running)` call, the node body
  up to and including the successor in-degree updates, and the deferred
  semaphore release), and the seeding loop over the topologically sorted
  nodes is one step per sorted node.  A schedule chooses which goroutine
  steps next; `Execute` returns `some result` exactly for schedules after
  which the seeding loop has finished and every spawned task has fully
  finished (this is `wg.Wait()` returning).
* The two unbuffered observability channels are event lists plus a
  `closed` flag; the spec's requirement that consumers subscribe before
  `Execute` means every channel send completes, so a send is an append.
-/

abbrev NodeID := String

/-- Read of a Go map modelled as an association list: first binding wins. -/
def mapGet {α : Type} : List (NodeID × α) → NodeID → Option α
  | [], _ => none
  | (k', v) :: rest, k => if k' = k then some v else mapGet rest k

/-- Write `m[k] = v` of a Go map: replace the binding of `k`, else append it. -/
def mapSet {α : Type} : List (NodeID × α) → NodeID → α → List (NodeID × α)
  | [], k, v => [(k, v)]
  | (k', v') :: rest, k, v =>
    if k' = k then (k, v) :: rest else (k', v') :: mapSet rest k v

/-- The key set of a Go map modelled as an association list. -/
def mapKeys {α : Type} (m : List (NodeID × α)) : List NodeID := m.map Prod.fst

/-- node/text_node.go: `TextNode` wraps a user-supplied processor function.
The processor's Go signature `func([]string) (string, error)` is modelled as
`List String → Except String String`. -/
structure TextNode where
  name : String
  inputs : List String
  outputs : List String
  processor : List String → Except String String

/-- node/text_node.go `NewTextNode`: fresh node with nil inputs/outputs. -/
def NewTextNode (name : String) (processor : List String → Except String String) :
    TextNode :=
  { name := name, inputs := [], outputs := [], processor := processor }

/-- node/text_node.go `(*TextNode).Execute`: run the processor on the stored
inputs; on success store a one-element output slice, on failure return the
error with the node unchanged.  The pair is (node after the call, error). -/
def TextNode.Execute (n : TextNode) : TextNode × Option String :=
  match n.processor n.inputs with
  | .error err => (n, some err)
  | .ok output => ({ n with outputs := [output] }, none)

/-- node/llm_node.go: `LLMNode` holds an `LLMClient`; the client's single
method `GenerateResponse(prompt string) (string, error)` is modelled as the
function field `llmClient`. -/
structure LLMNode where
  name : String
  inputs : List String
  outputs : List String
  llmClient : String → Except String String

/-- node/llm_node.go `NewLLMNode`. -/
def NewLLMNode (name : String) (client : String → Except String String) : LLMNode :=
  { name := name, inputs := [], outputs := [], llmClient := client }

/-- node/llm_node.go `(*LLMNode).Execute`: error unless exactly one input;
error if that input is empty; otherwise call the client and on success store
a one-element output slice, on failure return the client's error unchanged. -/
def LLMNode.Execute (n : LLMNode) : LLMNode × Option String :=
  match n.inputs with
  | [input] =>
    if input.length = 0 then (n, some ("input must not be empty"))
    else
      match n.llmClient input with
      | .ok response => ({ n with outputs := [response] }, none)
      | .error err => (n, some err)
  | _ => (n, some ("input must be exactly 1, got " ++ toString n.inputs.length))

/-- node/node.go: the `Node` interface; its implementations in the
repository are `TextNode` and `LLMNode`. -/
inductive Node
  | text (n : TextNode)
  | llm (n : LLMNode)

instance : Inhabited Node := ⟨.text (NewTextNode ("") (fun _ => .error ("")))⟩

/-- `SetInputs` of either implementation stores the inputs slice. -/
def Node.SetInputs : Node → List String → Node
  | .text n, ins => .text { n with inputs := ins }
  | .llm n, ins => .llm { n with inputs := ins }

/-- Dynamic dispatch of `Execute` over the two implementations. -/
def Node.Execute : Node → Node × Option String
  | .text n => let r := n.Execute; (.text r.1, r.2)
  | .llm n => let r := n.Execute; (.llm r.1, r.2)

/-- `GetOutputs` of either implementation returns the stored outputs. -/
def Node.GetOutputs : Node → List String
  | .text n => n.outputs
  | .llm n => n.outputs

/-- `Name` of either implementation. -/
def Node.Name : Node → String
  | .text n => n.name
  | .llm n => n.name

/-- dag.go `NodeStatus` with its four constants. -/
inductive NodeStatus
  | Pending
  | Running
  | Completed
  | Error
  deriving DecidableEq, Repr

/-- dag.go `NodeState`, the records sent on the status channel. -/
structure NodeState where
  ID : NodeID
  Status : NodeStatus
  deriving DecidableEq, Repr

/-- dag.go `NodeIO`, the records sent on the IO channel. -/
structure NodeIO where
  ID : NodeID
  Inputs : List String
  Outputs : List String
  deriving DecidableEq, Repr

/-- dag.go `DAG`.  The gonum `simple.DirectedGraph` together with the
`nodes : map[NodeID]graph.Node` indirection is flattened: the graph's node
set is the key set of `nodeMap` and its edge set is `edges` (gonum keeps at
most one directed edge per ordered pair).  `inDegree` values are `Int`
because Go's `int` counters go negative when decremented below zero. -/
structure DAG where
  nodeMap : List (NodeID × Node)
  edges : List (NodeID × NodeID)
  inDegree : List (NodeID × Int)
  nodeStatus : List (NodeID × NodeStatus)
  maxConcurrent : Nat

/-- dag.go `NewDAG`. -/
def NewDAG (maxConcurrent : Nat) : DAG :=
  { nodeMap := [], edges := [], inDegree := [], nodeStatus := [],
    maxConcurrent := maxConcurrent }

/-- dag.go `AddNode`: register (or replace) the binding of `id`, set its
in-degree to 0 and its status to Pending. -/
def DAG.AddNode (dag : DAG) (id : NodeID) (n : Node) : DAG :=
  { dag with
    nodeMap := mapSet dag.nodeMap id n,
    inDegree := mapSet dag.inDegree id 0,
    nodeStatus := mapSet dag.nodeStatus id .Pending }

/-- The possible outcomes of `AddEdge` other than success.  `missingNode id`
is the `fmt.Errorf("node %s does not exist", id)` error.  `selfEdgeCrash`
models the library panic: `AddEdge` calls gonum's
`(*simple.DirectedGraph).SetEdge`, which panics with "simple: adding self
edge" when the two endpoints are the same graph node, i.e. when
`from = to`; the call then never returns normally. -/
inductive AddEdgeError
  | missingNode (id : NodeID)
  | selfEdgeCrash
  deriving DecidableEq, Repr

/-- dag.go `AddEdge`: error when either endpoint is unregistered (checking
`from` first); otherwise insert the edge (gonum's edge set holds one edge
per ordered pair) and increment `to`'s in-degree.  The result pair is
(the DAG after the call, the abnormal outcome if any); on an error or the
self-edge panic the DAG is unchanged because the method mutates nothing
before the failing point. -/
def DAG.AddEdge (dag : DAG) (frm tgt : NodeID) : DAG × Option AddEdgeError :=
  if (mapGet dag.nodeMap frm).isNone then (dag, some (.missingNode frm))
  else if (mapGet dag.nodeMap tgt).isNone then (dag, some (.missingNode tgt))
  else if frm = tgt then (dag, some .selfEdgeCrash)
  else
    ({ dag with
        edges := if (frm, tgt) ∈ dag.edges then dag.edges else dag.edges ++ [(frm, tgt)],
        inDegree := mapSet dag.inDegree tgt ((mapGet dag.inDegree tgt).getD 0 + 1) },
      none)

/-- dag.go `GetLeafNodes`: the registered identifiers whose node has no
outgoing edge.  gonum iterates its node set in an unspecified order; the
model uses registration order. -/
def DAG.GetLeafNodes (dag : DAG) : List NodeID :=
  (mapKeys dag.nodeMap).filter (fun id => !(dag.edges.any (fun e => decide (e.1 = id))))

/-- Whether `id` has an incoming edge whose source is still in `remaining`;
used by the topological sort. -/
def hasIncomingFrom (edges : List (NodeID × NodeID)) (remaining : List NodeID)
    (id : NodeID) : Bool :=
  edges.any (fun e => decide (e.2 = id) && decide (e.1 ∈ remaining))

/-- Kahn's algorithm with explicit fuel, modelling gonum's `topo.Sort`:
repeatedly emit a node with no incoming edge from the remaining nodes;
if none exists while nodes remain, the graph is cyclic and the sort fails
(`topo.Unorderable`). -/
def topoSortAux (edges : List (NodeID × NodeID)) :
    Nat → List NodeID → Option (List NodeID)
  | 0, remaining => if remaining.isEmpty then some [] else none
  | fuel + 1, remaining =>
    if remaining.isEmpty then some []
    else
      match remaining.find? (fun id => !(hasIncomingFrom edges remaining id)) with
      | none => none
      | some id =>
        match topoSortAux edges fuel (remaining.erase id) with
        | none => none
        | some rest => some (id :: rest)

/-- dag.go line `sorted, err := topo.Sort(dag.graph)`: `none` is the
`Unorderable` (cyclic graph) error. -/
def topoSort (ids : List NodeID) (edges : List (NodeID × NodeID)) :
    Option (List NodeID) :=
  topoSortAux edges ids.length ids

/-- The program points of one `execNode` goroutine, between its atomic
steps: `waitSem` before `sem <- struct{}{}`; `gotSem` before
`updateNodeStatus(id, Running)`; `running` before the body (input assembly,
`SetInputs`, `Execute`, output commit, terminal status update, successor
in-degree updates and spawns); `terminalDone` before the deferred `<-sem`;
`finished` after it (when `wg.Done` has run). -/
inductive Phase
  | waitSem
  | gotSem
  | running
  | terminalDone
  | finished
  deriving DecidableEq, Repr

/-- One spawned `execNode` goroutine: the node it was dispatched for and
its current program point. -/
structure NodeTask where
  id : NodeID
  phase : Phase
  deriving DecidableEq, Repr

/-- The shared state of one `Execute` call: the DAG's mutable tables, the
per-execution tables, the first-error cell `execErr` (with `errLog`, the
history of all writes to it, kept purely for specification), the semaphore
occupancy `sem`, the not-yet-processed tail of the seeding loop
`seedQueue`, the spawned goroutines `tasks`, and the events sent so far on
the two channels. -/
structure ExecState where
  nodeMap : List (NodeID × Node)
  edges : List (NodeID × NodeID)
  inDegree : List (NodeID × Int)
  nodeStatus : List (NodeID × NodeStatus)
  maxConcurrent : Nat
  inputs : List (NodeID × List String)
  outputs : List (NodeID × List String)
  execErr : Option String
  errLog : List String
  sem : Nat
  seedQueue : List NodeID
  tasks : List NodeTask
  statusEvents : List NodeState
  ioEvents : List NodeIO

/-- The status table read, with Go map semantics (registered nodes always
have a binding; `Pending` is only the `getD` default). -/
def statusOf (s : ExecState) (id : NodeID) : NodeStatus :=
  (mapGet s.nodeStatus id).getD .Pending

/-- dag.go lines 363-378 of `execNode`: assemble the node's inputs as the
caller's initial inputs for this id (if present) followed by, for each
direct predecessor in edge order, that predecessor's entry in the shared
output table (if present). -/
def assembleInputs (s : ExecState) (id : NodeID) : List String :=
  ((mapGet s.inputs id).getD []) ++
    ((s.edges.filter (fun e => decide (e.2 = id))).foldl
      (fun acc e => acc ++ ((mapGet s.outputs e.1).getD [])) [])

/-- dag.go lines 406-419 of `execNode`: for each outgoing edge of the
completed node, decrement the successor's in-degree and, exactly when it
reaches zero, spawn a goroutine for it (appended in `waitSem` phase). -/
def propagate : List (NodeID × NodeID) → List (NodeID × Int) → List NodeTask →
    List (NodeID × Int) × List NodeTask
  | [], inDeg, ts => (inDeg, ts)
  | e :: rest, inDeg, ts =>
    let d := (mapGet inDeg e.2).getD 0 - 1
    propagate rest (mapSet inDeg e.2 d)
      (if d = 0 then ts ++ [⟨e.2, .waitSem⟩] else ts)

/-- The body of `execNode` (dag.go lines 360-420) as one atomic step for
the task at index `i` running node `id`: assemble inputs, `SetInputs`,
`Execute`; on failure write `execErr` (unconditionally overwriting any
previous value), set status Error and publish it; on success commit the
outputs, set status Completed, publish the status and IO events, and
propagate to successors. -/
def bodyStep (s : ExecState) (i : Nat) (id : NodeID) : ExecState :=
  let nodeInputs := assembleInputs s id
  let n := ((mapGet s.nodeMap id).getD default).SetInputs nodeInputs
  match n.Execute with
  | (n', some err) =>
    { s with
      nodeMap := mapSet s.nodeMap id n',
      execErr := some err,
      errLog := s.errLog ++ [err],
      nodeStatus := mapSet s.nodeStatus id .Error,
      statusEvents := s.statusEvents ++ [⟨id, .Error⟩],
      tasks := s.tasks.set i ⟨id, .terminalDone⟩ }
  | (n', none) =>
    let outs := n'.GetOutputs
    let r := propagate (s.edges.filter (fun e => decide (e.1 = id))) s.inDegree
      (s.tasks.set i ⟨id, .terminalDone⟩)
    { s with
      nodeMap := mapSet s.nodeMap id n',
      outputs := mapSet s.outputs id outs,
      nodeStatus := mapSet s.nodeStatus id .Completed,
      statusEvents := s.statusEvents ++ [⟨id, .Completed⟩],
      ioEvents := s.ioEvents ++ [⟨id, nodeInputs, outs⟩],
      inDegree := r.1,
      tasks := r.2 }

/-- One atomic step of the spawned goroutine at index `i`. -/
def taskStep (s : ExecState) (i : Nat) : ExecState :=
  match s.tasks.get? i with
  | none => s
  | some t =>
    match t.phase with
    | .waitSem =>
      if s.sem < s.maxConcurrent then
        { s with sem := s.sem + 1, tasks := s.tasks.set i ⟨t.id, .gotSem⟩ }
      else s
    | .gotSem =>
      { s with
        nodeStatus := mapSet s.nodeStatus t.id .Running,
        statusEvents := s.statusEvents ++ [⟨t.id, .Running⟩],
        tasks := s.tasks.set i ⟨t.id, .running⟩ }
    | .running => bodyStep s i t.id
    | .terminalDone =>
      { s with sem := s.sem - 1, tasks := s.tasks.set i ⟨t.id, .finished⟩ }
    | .finished => s

/-- One iteration of the seeding loop (dag.go lines 428-435): take the next
node of the topological order and spawn a goroutine for it iff its
in-degree *currently reads* 0.  The read is the code's unsynchronised
`dag.inDegree[id] == 0`, so it sees the table as concurrently running
tasks have left it. -/
def seedStep (s : ExecState) : ExecState :=
  match s.seedQueue with
  | [] => s
  | id :: rest =>
    if (mapGet s.inDegree id).getD 0 = 0 then
      { s with seedQueue := rest, tasks := s.tasks ++ [⟨id, .waitSem⟩] }
    else { s with seedQueue := rest }

/-- A scheduling decision: either the main goroutine performs the next
seeding-loop iteration, or the spawned goroutine at index `i` performs its
next atomic step. -/
inductive SchedStep
  | seed
  | task (i : Nat)

/-- Dispatch one scheduling decision. -/
def runStep (s : ExecState) : SchedStep → ExecState
  | .seed => seedStep s
  | .task i => taskStep s i

/-- Run a whole schedule (a chosen interleaving of the goroutines). -/
def runSched (sched : List SchedStep) (s : ExecState) : ExecState :=
  sched.foldl runStep s

/-- The state at the top of `Execute` once the sort has succeeded: fresh
output tables, no error, empty semaphore, the whole sorted order still to
be seeded, and no goroutine spawned yet. -/
def initState (dag : DAG) (inputs : List (NodeID × List String))
    (sorted : List NodeID) : ExecState :=
  { nodeMap := dag.nodeMap, edges := dag.edges, inDegree := dag.inDegree,
    nodeStatus := dag.nodeStatus, maxConcurrent := dag.maxConcurrent,
    inputs := inputs, outputs := [], execErr := none, errLog := [], sem := 0,
    seedQueue := sorted, tasks := [], statusEvents := [], ioEvents := [] }

/-- `wg.Wait()` returns exactly when the seeding loop is done and every
spawned goroutine has fully finished. -/
def ExecState.drained (s : ExecState) : Bool :=
  s.seedQueue.isEmpty && s.tasks.all (fun t => decide (t.phase = .finished))

/-- The error returned by `Execute`: the `topo.Sort` failure on a cyclic
graph, or the captured node error. -/
inductive ExecError
  | cyclic
  | nodeFailed (msg : String)
  deriving DecidableEq, Repr

/-- Everything observable about one `Execute` call: its three return values
and, for the two channels, the events sent and whether the channel was
closed before `Execute` returned. -/
structure ExecResult where
  outputs : Option (List (NodeID × List String))
  finalOutputs : Option (List (NodeID × List String))
  err : Option ExecError
  statusEvents : List NodeState
  ioEvents : List NodeIO
  statusChanClosed : Bool
  ioChanClosed : Bool
  errLog : List String
  deriving DecidableEq, Repr

instance : Inhabited ExecResult :=
  ⟨{ outputs := none, finalOutputs := none, err := none, statusEvents := [],
     ioEvents := [], statusChanClosed := false, ioChanClosed := false,
     errLog := [] }⟩

/-- dag.go `Execute` under the interleaving chosen by `sched`.  On a cyclic
graph it returns at the sort error, *before* the `close` calls, so neither
channel is closed and no event was sent.  Otherwise it seeds and runs the
goroutines; `some result` is produced exactly when the schedule drains the
execution (`wg.Wait()` has returned), after which both channels are closed;
with an error recorded it returns only that error, else the output table
and its restriction to the leaf nodes of the (unchanged) edge set. -/
def DAG.Execute (dag : DAG) (inputs : List (NodeID × List String))
    (sched : List SchedStep) : Option ExecResult :=
  match topoSort (mapKeys dag.nodeMap) dag.edges with
  | none =>
    some { outputs := none, finalOutputs := none, err := some .cyclic,
           statusEvents := [], ioEvents := [], statusChanClosed := false,
           ioChanClosed := false, errLog := [] }
  | some sorted =>
    let s := runSched sched (initState dag inputs sorted)
    if s.drained then
      some (match s.execErr with
        | some msg =>
          { outputs := none, finalOutputs := none, err := some (.nodeFailed msg),
            statusEvents := s.statusEvents, ioEvents := s.ioEvents,
            statusChanClosed := true, ioChanClosed := true, errLog := s.errLog }
        | none =>
          { outputs := some s.outputs,
            finalOutputs := some ((dag.GetLeafNodes).map
              (fun id => (id, (mapGet s.outputs id).getD []))),
            err := none,
            statusEvents := s.statusEvents, ioEvents := s.ioEvents,
            statusChanClosed := true, ioChanClosed := true, errLog := s.errLog })
    else none

/-- The phases during which a goroutine holds a semaphore slot: from the
completed `sem <- struct{}{}` until the deferred `<-sem` has run. -/
def slotHeldB : Phase → Bool
  | .gotSem => true
  | .running => true
  | .terminalDone => true
  | _ => false

/-- The phases before the goroutine's body has run (its node has not yet
reached a terminal status). -/
def preBodyB : Phase → Bool
  | .waitSem => true
  | .gotSem => true
  | .running => true
  | _ => false

/-- Some goroutine was spawned for `id`. -/
def hasTask (ts : List NodeTask) (id : NodeID) : Prop :=
  ∃ t ∈ ts, t.id = id

/-- Some goroutine for `id` has not yet run its body. -/
def hasPreBodyTask (ts : List NodeTask) (id : NodeID) : Prop :=
  ∃ t ∈ ts, t.id = id ∧ preBodyB t.phase = true

/-- Number of goroutines currently holding a semaphore slot. -/
def midCount (ts : List NodeTask) : Nat :=
  ts.countP (fun t => slotHeldB t.phase)

/-- Number of incoming edges of `id` in an edge list. -/
def countInEdges (edges : List (NodeID × NodeID)) (id : NodeID) : Nat :=
  edges.countP (fun e => decide (e.2 = id))

/-- Number of incoming edges of `id` whose source currently has status
Completed. -/
def completedPreds (s : ExecState) (id : NodeID) : Nat :=
  s.edges.countP (fun e => decide (e.2 = id) && decide (statusOf s e.1 = .Completed))

/-- Number of registered nodes whose status is currently Running. -/
def runningCount (s : ExecState) : Nat :=
  ((mapKeys s.nodeMap).filter (fun id => decide (statusOf s id = .Running))).length

/-- The state invariants a DAG enjoys when built through `NewDAG`,
`AddNode` (with fresh ids) and `AddEdge`: node ids are unique, every edge
endpoint is registered, each in-degree binding counts the incoming edges
of its node and every edge target has such a binding, and every status
binding is Pending. -/
def DAG.WF (dag : DAG) : Prop :=
  (mapKeys dag.nodeMap).Nodup ∧
  (∀ e ∈ dag.edges, e.1 ∈ mapKeys dag.nodeMap ∧ e.2 ∈ mapKeys dag.nodeMap) ∧
  (∀ p ∈ dag.inDegree, p.2 = (countInEdges dag.edges p.1 : Int)) ∧
  (∀ e ∈ dag.edges, e.2 ∈ mapKeys dag.inDegree) ∧
  (∀ p ∈ dag.nodeStatus, p.2 = NodeStatus.Pending)

instance (dag : DAG) : Decidable dag.WF := by
  unfold DAG.WF
  exact inferInstance

/-- A text processor that ignores its inputs and succeeds with `out`. -/
def okProcessor (out : String) : List String → Except String String :=
  fun _ => .ok out

/-- A text processor that always fails with `msg`. -/
def failProcessor (msg : String) : List String → Except String String :=
  fun _ => .error msg

/-- A text processor joining its inputs with a comma. -/
def joinProcessor : List String → Except String String :=
  fun ins => .ok (String.intercalate (", ") ins)

/-- The `textProcessor` of dag_test.go: fail on empty input, else join the
inputs with single spaces. -/
def joinSpaceProcessor : List String → Except String String :=
  fun ins =>
    if ins.isEmpty then .error ("input must not be empty")
    else .ok (String.intercalate (" ") ins)

/-- The `MockLLMClient` of dag_test.go. -/
def mockClient : String → Except String String :=
  fun prompt => .ok ("mock response: " ++ prompt)

/-- Four consecutive steps of the goroutine at index `i`: enough to take a
freshly spawned task through acquire, Running, body, and release. -/
def fourSteps (i : Nat) : List SchedStep :=
  [.task i, .task i, .task i, .task i]

/-- Two independent root nodes whose processors fail with different
messages. -/
def twoFailingRootsDAG : DAG :=
  ((NewDAG 2).AddNode ("E1") (.text (NewTextNode ("E1") (failProcessor ("errA"))))).AddNode
    ("E2") (.text (NewTextNode ("E2") (failProcessor ("errB"))))

/-- Run E1's goroutine to completion, then E2's: E1's error is observed
first, E2's error overwrites it. -/
def twoFailingRootsSched : List SchedStep :=
  [.seed, .seed] ++ fourSteps 0 ++ fourSteps 1

/-- A two-node chain A → B with always-succeeding processors. -/
def chainDAG : DAG :=
  (((((NewDAG 2).AddNode ("A") (.text (NewTextNode ("A") (okProcessor ("Aout"))))).AddNode
    ("B") (.text (NewTextNode ("B") (okProcessor ("Bout"))))).AddEdge ("A") ("B")).1)

/-- The racy interleaving on `chainDAG`: A's goroutine runs to completion
(spawning B) while the seeding loop has not yet examined B; the loop then
reads B's in-degree as 0 and dispatches B a second time. -/
def chainRaceSched : List SchedStep :=
  [.seed] ++ fourSteps 0 ++ [.seed] ++ fourSteps 1 ++ fourSteps 2

/-- The graph A → P, P → X, Y → X where Y's processor is a parameter: under
the racy interleaving P is dispatched twice, so X's in-degree is
decremented twice by P alone and X is released without Y having run. -/
def raceDAG (yproc : List String → Except String String) : DAG :=
  (((((((NewDAG 2).AddNode ("A") (.text (NewTextNode ("A") (okProcessor ("Aout"))))).AddNode
    ("P") (.text (NewTextNode ("P") (okProcessor ("Pout"))))).AddNode
    ("X") (.text (NewTextNode ("X") joinProcessor))).AddNode
    ("Y") (.text (NewTextNode ("Y") yproc))).AddEdge ("A") ("P")).1.AddEdge
    ("P") ("X")).1.AddEdge ("Y") ("X") |>.1

/-- `raceDAG` with a succeeding Y. -/
def raceOkDAG : DAG := raceDAG (okProcessor ("Yout"))

/-- `raceDAG` with a failing Y. -/
def raceFailDAG : DAG := raceDAG (failProcessor ("Y failed"))

/-- Racy interleaving on `raceOkDAG`: A runs (spawning P), the seeding loop
then dispatches P again, both P goroutines run (releasing X), X runs with
Y's output still missing, and only then does Y run. -/
def raceOkSched : List SchedStep :=
  [.seed] ++ fourSteps 0 ++ [.seed, .seed, .seed] ++ fourSteps 1 ++ fourSteps 2 ++
    fourSteps 4 ++ fourSteps 3

/-- Racy interleaving on `raceFailDAG`: after A and the double dispatch of
P, Y runs first and fails; both P goroutines then run, release X, and X
runs to completion although its ancestor Y failed. -/
def raceFailSched : List SchedStep :=
  [.seed] ++ fourSteps 0 ++ [.seed, .seed, .seed] ++ fourSteps 3 ++ fourSteps 1 ++
    fourSteps 2 ++ fourSteps 4

/-- A two-node cycle a → b → a. -/
def cyclicDAG : DAG :=
  ((((((NewDAG 1).AddNode ("a") (.text (NewTextNode ("a") (okProcessor ("x"))))).AddNode
    ("b") (.text (NewTextNode ("b") (okProcessor ("y"))))).AddEdge ("a") ("b")).1.AddEdge
    ("b") ("a")).1)

/-- A single registered node, used to exercise `AddEdge` on a self-loop. -/
def selfLoopDAG : DAG :=
  (NewDAG 1).AddNode ("a") (.text (NewTextNode ("a") (okProcessor ("x"))))

/-- The first test case of dag_test.go: textNode → llmNode with the
space-joining processor and the mock client, maxConcurrent 2. -/
def scenADAG : DAG :=
  ((((NewDAG 2).AddNode ("textNode") (.text (NewTextNode ("textNode") joinSpaceProcessor))).AddNode
    ("llmNode") (.llm (NewLLMNode ("llmNode") mockClient))).AddEdge
    ("textNode") ("llmNode")).1

/-- A race-free interleaving of `scenADAG`: the seeding loop finishes
before any goroutine runs. -/
def scenASched : List SchedStep :=
  [.seed, .seed] ++ fourSteps 0 ++ fourSteps 1
/-- The inductive invariant of the scheduler's shared state, preserved by
every atomic step under any interleaving: registration facts (node ids
unique, edges/tasks/seed queue over registered ids), the admission
discipline (slot holders counted by `sem`, bounded by `maxConcurrent`,
Running nodes backed by a slot-holding goroutine in its `running` phase),
and the release discipline (a non-positive in-degree means the node was
spawned, unless it is a root still awaiting its seeding-loop iteration;
the in-degree is at most the incoming edges not yet accounted for by
Completed predecessors; with no error recorded, a spawned node either has
a goroutine before its body or is Completed; Completed nodes have a
committed output). -/
structure SchedInv (s : ExecState) : Prop where
  keys_nodup : (mapKeys s.nodeMap).Nodup
  edges_reg : ∀ e ∈ s.edges, e.1 ∈ mapKeys s.nodeMap ∧ e.2 ∈ mapKeys s.nodeMap
  tasks_reg : ∀ t ∈ s.tasks, t.id ∈ mapKeys s.nodeMap
  seed_reg : ∀ id ∈ s.seedQueue, id ∈ mapKeys s.nodeMap
  sem_le : s.sem ≤ s.maxConcurrent
  mid_eq_sem : midCount s.tasks = s.sem
  running_task : ∀ id, statusOf s id = .Running →
    ∃ t ∈ s.tasks, t.id = id ∧ t.phase = .running
  release_ready : ∀ id ∈ mapKeys s.nodeMap, (mapGet s.inDegree id).getD 0 ≤ 0 →
    hasTask s.tasks id ∨
      (id ∈ s.seedQueue ∧ countInEdges s.edges id = 0 ∧
        (mapGet s.inDegree id).getD 0 = 0)
  indeg_bound : ∀ id, (mapGet s.inDegree id).getD 0 ≤
    (countInEdges s.edges id : Int) - (completedPreds s id : Int)
  done_completed : s.errLog = [] → ∀ id, hasTask s.tasks id →
    hasPreBodyTask s.tasks id ∨ statusOf s id = .Completed
  completed_outputs : ∀ id, statusOf s id = .Completed →
    (mapGet s.outputs id).isSome = true

section MapLemmas

theorem mapGet_mapSet_self {α : Type} (m : List (NodeID × α)) (k : NodeID) (v : α) :
    mapGet (mapSet m k v) k = some v := by
  induction m with
  | nil => simp [mapSet, mapGet]
  | cons p rest ih =>
    obtain ⟨k1, v1⟩ := p
    by_cases h : k1 = k
    · simp [mapSet, h, mapGet]
    · simp [mapSet, h, mapGet, ih]

theorem mapGet_mapSet_ne {α : Type} (m : List (NodeID × α)) (k j : NodeID) (v : α)
    (h : j ≠ k) : mapGet (mapSet m k v) j = mapGet m j := by
  have hkj : ¬(k = j) := fun hh => h hh.symm
  induction m with
  | nil => simp [mapSet, mapGet, hkj]
  | cons p rest ih =>
    obtain ⟨k1, v1⟩ := p
    by_cases hk : k1 = k
    · subst hk
      simp [mapSet, mapGet, hkj]
    · simp only [mapSet, if_neg hk]
      by_cases hj : k1 = j
      · simp [mapGet, hj]
      · simp [mapGet, hj, ih]

theorem mapGet_isSome_iff_mem {α : Type} (m : List (NodeID × α)) (k : NodeID) :
    (mapGet m k).isSome = true ↔ k ∈ mapKeys m := by
  induction m with
  | nil => simp [mapGet, mapKeys]
  | cons p rest ih =>
    obtain ⟨k1, v1⟩ := p
    by_cases h : k1 = k
    · simp [mapGet, h, mapKeys]
    · have : ¬(k = k1) := fun hh => h hh.symm
      simp [mapGet, h, mapKeys, ih, this]

theorem mapGet_eq_none_iff {α : Type} (m : List (NodeID × α)) (k : NodeID) :
    mapGet m k = none ↔ k ∉ mapKeys m := by
  rw [← mapGet_isSome_iff_mem]
  cases mapGet m k <;> simp

theorem mapGet_mem {α : Type} {m : List (NodeID × α)} {k : NodeID} {v : α}
    (h : mapGet m k = some v) : (k, v) ∈ m := by
  induction m with
  | nil => simp [mapGet] at h
  | cons p rest ih =>
    obtain ⟨k1, v1⟩ := p
    by_cases hk : k1 = k
    · simp [mapGet, hk] at h
      subst hk
      subst h
      exact List.mem_cons_self _ _
    · simp [mapGet, hk] at h
      exact List.mem_cons_of_mem _ (ih h)

theorem mapKeys_mapSet_of_mem {α : Type} (m : List (NodeID × α)) (k : NodeID) (v : α)
    (h : k ∈ mapKeys m) : mapKeys (mapSet m k v) = mapKeys m := by
  induction m with
  | nil => simp [mapKeys] at h
  | cons p rest ih =>
    obtain ⟨k1, v1⟩ := p
    by_cases hk : k1 = k
    · simp [mapSet, hk, mapKeys]
    · have hmem : k ∈ mapKeys rest := by
        rcases (by simpa [mapKeys] using h : k = k1 ∨ k ∈ mapKeys rest) with h1 | h1
        · exact absurd h1.symm hk
        · exact h1
      have hstep : mapSet ((k1, v1) :: rest) k v = (k1, v1) :: mapSet rest k v := by
        simp [mapSet, hk]
      rw [hstep]
      show k1 :: mapKeys (mapSet rest k v) = k1 :: mapKeys rest
      rw [ih hmem]

theorem mapGet_map_pair_of_mem {α : Type} (f : NodeID → α) (l : List NodeID) (k : NodeID)
    (h : k ∈ l) : mapGet (l.map (fun x => (x, f x))) k = some (f k) := by
  induction l with
  | nil => simp at h
  | cons a l ih =>
    by_cases hk : a = k
    · subst hk; simp [mapGet]
    · rw [List.mem_cons] at h
      rcases h with h | h
      · exact absurd h.symm hk
      · simp [mapGet, hk, ih h]

theorem mapGet_map_pair_of_not_mem {α : Type} (f : NodeID → α) (l : List NodeID) (k : NodeID)
    (h : k ∉ l) : mapGet (l.map (fun x => (x, f x))) k = none := by
  induction l with
  | nil => simp [mapGet]
  | cons a l ih =>
    simp at h
    have ha : ¬(a = k) := fun hh => h.1 hh.symm
    simp [mapGet, ha, ih h.2]

theorem mapKeys_map_pair {α : Type} (f : NodeID → α) (l : List NodeID) :
    mapKeys (l.map (fun x => (x, f x))) = l := by
  induction l with
  | nil => rfl
  | cons a l ih => simp [mapKeys] at ih ⊢; exact ih

end MapLemmas

section ListLemmas

theorem get?_set_self {α : Type} (l : List α) (i : Nat) (a : α) (h : i < l.length) :
    (l.set i a).get? i = some a := by
  induction l generalizing i with
  | nil => simp at h
  | cons c rest ih =>
    cases i with
    | zero => rfl
    | succ i => simpa using ih i (by simpa using h)

theorem get?_set_ne {α : Type} (l : List α) (i j : Nat) (a : α) (h : i ≠ j) :
    (l.set i a).get? j = l.get? j := by
  induction l generalizing i j with
  | nil => simp
  | cons c rest ih =>
    cases i with
    | zero =>
      cases j with
      | zero => exact absurd rfl h
      | succ j => rfl
    | succ i =>
      cases j with
      | zero => rfl
      | succ j => simpa using ih i j (by omega)

theorem mem_set_of_ne {α : Type} {l : List α} {i : Nat} {a b x : α}
    (hx : x ∈ l) (hi : l.get? i = some a) (hne : x ≠ a) : x ∈ l.set i b := by
  induction l generalizing i with
  | nil => simp at hx
  | cons c rest ih =>
    rw [List.mem_cons] at hx
    cases i with
    | zero =>
      have hca : c = a := by simpa [List.get?] using hi
      rcases hx with rfl | hx
      · exact absurd hca hne
      · exact List.mem_cons_of_mem _ hx
    | succ i =>
      rcases hx with rfl | hx
      · exact List.mem_cons_self _ _
      · exact List.mem_cons_of_mem _ (ih hx (by simpa using hi))

theorem mem_set_self {α : Type} (l : List α) (i : Nat) (b : α) (h : i < l.length) :
    b ∈ l.set i b :=
  List.get?_mem (get?_set_self l i b h)

theorem countP_set_add {α : Type} (l : List α) (i : Nat) (a b : α) (p : α → Bool)
    (h : l.get? i = some a) :
    (l.set i b).countP p + (if p a then 1 else 0) =
      l.countP p + (if p b then 1 else 0) := by
  induction l generalizing i with
  | nil => simp at h
  | cons c rest ih =>
    cases i with
    | zero =>
      have hca : c = a := by simpa [List.get?] using h
      subst hca
      simp [List.countP_cons]
      omega
    | succ i =>
      have := ih i (by simpa using h)
      simp [List.countP_cons]
      omega

end ListLemmas

theorem length_filter_le_countP {β : Type} [DecidableEq β] (key : β → NodeID)
    (q : β → Bool) (L : List NodeID) (p : NodeID → Bool) :
    ∀ (ts : List β), L.Nodup →
      (∀ a ∈ L, p a = true → ∃ t ∈ ts, key t = a ∧ q t = true) →
      (L.filter p).length ≤ ts.countP q := by
  induction L with
  | nil => intro ts _ _; simp
  | cons a L ih =>
    intro ts hnd h
    rw [List.nodup_cons] at hnd
    by_cases hp : p a = true
    · obtain ⟨t, htmem, htkey, htq⟩ := h a (List.mem_cons_self _ _) hp
      have hperm : ts.Perm (t :: ts.erase t) := List.perm_cons_erase htmem
      have hcount : ts.countP q = 1 + (ts.erase t).countP q := by
        rw [hperm.countP_eq, List.countP_cons, htq, if_pos rfl]
        omega
      have hrec : (L.filter p).length ≤ (ts.erase t).countP q := by
        refine ih (ts.erase t) hnd.2 ?_
        intro a' ha' hpa'
        obtain ⟨t', ht'mem, ht'key, ht'q⟩ := h a' (List.mem_cons_of_mem _ ha') hpa'
        refine ⟨t', ?_, ht'key, ht'q⟩
        have hne : t' ≠ t := by
          intro hEq
          apply hnd.1
          have haa : a' = a := by rw [← ht'key, hEq, htkey]
          rwa [haa] at ha'
        exact (List.mem_erase_of_ne hne).mpr ht'mem
      rw [List.filter_cons, if_pos hp, List.length_cons, hcount]
      omega
    · have hrec := ih ts hnd.2 (fun a' ha' hpa' => h a' (List.mem_cons_of_mem _ ha') hpa')
      simp only [List.filter_cons]
      rw [if_neg hp]
      omega

section TopoLemmas

theorem topoSortAux_spec (edges : List (NodeID × NodeID)) (fuel : Nat) :
    ∀ (rem l : List NodeID), topoSortAux edges fuel rem = some l →
      (∀ x, x ∈ l ↔ x ∈ rem) ∧
      (∀ l₁ u l₂, l = l₁ ++ u :: l₂ → ∀ v, (v, u) ∈ edges → v ∈ rem → v ∈ l₁) := by
  induction fuel with
  | zero =>
    intro rem l h
    simp only [topoSortAux] at h
    by_cases hrem : rem.isEmpty
    · rw [if_pos hrem] at h
      obtain rfl : ([] : List NodeID) = l := by simpa using h
      rw [List.isEmpty_iff] at hrem
      subst hrem
      refine ⟨by simp, ?_⟩
      intro l₁ u l₂ hsplit
      exact absurd hsplit (by simp)
    · rw [if_neg hrem] at h
      exact absurd h (by simp)
  | succ fuel ih =>
    intro rem l h
    simp only [topoSortAux] at h
    by_cases hrem : rem.isEmpty
    · rw [if_pos hrem] at h
      obtain rfl : ([] : List NodeID) = l := by simpa using h
      rw [List.isEmpty_iff] at hrem
      subst hrem
      refine ⟨by simp, ?_⟩
      intro l₁ u l₂ hsplit
      exact absurd hsplit (by simp)
    · rw [if_neg hrem] at h
      rcases hfind : rem.find? (fun id => !(hasIncomingFrom edges rem id)) with _ | id
      · rw [hfind] at h; exact absurd h (by simp)
      · rw [hfind] at h
        have h2 : (match topoSortAux edges fuel (rem.erase id) with
            | none => none
            | some rest => some (id :: rest)) = some l := h
        clear h
        rcases hrec : topoSortAux edges fuel (rem.erase id) with _ | rest
        · rw [hrec] at h2; exact absurd h2 (by simp)
        · rw [hrec] at h2
          obtain rfl : id :: rest = l := by simpa using h2
          have hidmem : id ∈ rem := List.mem_of_find?_eq_some hfind
          have hnoinc : hasIncomingFrom edges rem id = false := by
            have := List.find?_some hfind
            simpa using this
          obtain ⟨ihmem, ihsplit⟩ := ih (rem.erase id) rest hrec
          constructor
          · intro x
            constructor
            · intro hx
              rw [List.mem_cons] at hx
              rcases hx with rfl | hx
              · exact hidmem
              · exact List.erase_subset _ _ ((ihmem x).mp hx)
            · intro hx
              by_cases hxid : x = id
              · subst hxid; exact List.mem_cons_self _ _
              · exact List.mem_cons_of_mem _
                  ((ihmem x).mpr ((List.mem_erase_of_ne hxid).mpr hx))
          · intro l₁ u l₂ hsplit v hv hvrem
            cases l₁ with
            | nil =>
              simp only [List.nil_append, List.cons.injEq] at hsplit
              obtain ⟨rfl, rfl⟩ := hsplit
              exfalso
              rw [hasIncomingFrom, List.any_eq_false] at hnoinc
              have hcontr := hnoinc _ hv
              simp [hvrem] at hcontr
            | cons c l₁ =>
              simp only [List.cons_append, List.cons.injEq] at hsplit
              obtain ⟨rfl, hsplit⟩ := hsplit
              by_cases hvid : v = id
              · subst hvid; exact List.mem_cons_self _ _
              · exact List.mem_cons_of_mem _
                  (ihsplit l₁ u l₂ hsplit v hv ((List.mem_erase_of_ne hvid).mpr hvrem))

theorem topoSort_mem {ids edges : List _} {sorted : List NodeID}
    (h : topoSort ids edges = some sorted) : ∀ x, x ∈ sorted ↔ x ∈ ids :=
  (topoSortAux_spec edges ids.length ids sorted h).1

theorem topoSort_before {ids edges : List _} {sorted : List NodeID}
    (h : topoSort ids edges = some sorted) :
    ∀ l₁ u l₂, sorted = l₁ ++ u :: l₂ → ∀ v, (v, u) ∈ edges → v ∈ ids → v ∈ l₁ :=
  (topoSortAux_spec edges ids.length ids sorted h).2

end TopoLemmas

section StepShapeLemmas

theorem seedStep_shape (s : ExecState) :
    (s.seedQueue = [] ∧ seedStep s = s) ∨
    (∃ id rest, s.seedQueue = id :: rest ∧
      ((mapGet s.inDegree id).getD 0 = 0 ∧
        seedStep s = { s with seedQueue := rest, tasks := s.tasks ++ [⟨id, .waitSem⟩] } ∨
       (mapGet s.inDegree id).getD 0 ≠ 0 ∧
        seedStep s = { s with seedQueue := rest })) := by
  rcases hq : s.seedQueue with _ | ⟨id, rest⟩
  · left
    refine ⟨rfl, ?_⟩
    unfold seedStep
    rw [hq]
  · right
    refine ⟨id, rest, rfl, ?_⟩
    by_cases h : (mapGet s.inDegree id).getD 0 = 0
    · left
      refine ⟨h, ?_⟩
      unfold seedStep
      simp only [hq]
      rw [if_pos h]
    · right
      refine ⟨h, ?_⟩
      unfold seedStep
      simp only [hq]
      rw [if_neg h]

theorem bodyStep_shape (s : ExecState) (i : Nat) (id : NodeID) :
    (∃ n' err,
      bodyStep s i id =
        { s with
          nodeMap := mapSet s.nodeMap id n',
          execErr := some err,
          errLog := s.errLog ++ [err],
          nodeStatus := mapSet s.nodeStatus id .Error,
          statusEvents := s.statusEvents ++ [⟨id, .Error⟩],
          tasks := s.tasks.set i ⟨id, .terminalDone⟩ }) ∨
    (∃ n',
      bodyStep s i id =
        { s with
          nodeMap := mapSet s.nodeMap id n',
          outputs := mapSet s.outputs id n'.GetOutputs,
          nodeStatus := mapSet s.nodeStatus id .Completed,
          statusEvents := s.statusEvents ++ [⟨id, .Completed⟩],
          ioEvents := s.ioEvents ++ [⟨id, assembleInputs s id, n'.GetOutputs⟩],
          inDegree := (propagate (s.edges.filter (fun e => decide (e.1 = id)))
            s.inDegree (s.tasks.set i ⟨id, .terminalDone⟩)).1,
          tasks := (propagate (s.edges.filter (fun e => decide (e.1 = id)))
            s.inDegree (s.tasks.set i ⟨id, .terminalDone⟩)).2 }) := by
  rcases hex : (((mapGet s.nodeMap id).getD default).SetInputs (assembleInputs s id)).Execute
    with ⟨n', e⟩
  rcases e with _ | err
  · right
    refine ⟨n', ?_⟩
    simp only [bodyStep]
    rw [hex]
  · left
    refine ⟨n', err, ?_⟩
    simp only [bodyStep]
    rw [hex]

theorem taskStep_shape (s : ExecState) (i : Nat) :
    (s.tasks.get? i = none ∧ taskStep s i = s) ∨
    (∃ t, s.tasks.get? i = some t ∧
      ((t.phase = .waitSem ∧ ¬(s.sem < s.maxConcurrent) ∧ taskStep s i = s) ∨
       (t.phase = .waitSem ∧ s.sem < s.maxConcurrent ∧
         taskStep s i =
           { s with sem := s.sem + 1, tasks := s.tasks.set i ⟨t.id, .gotSem⟩ }) ∨
       (t.phase = .gotSem ∧
         taskStep s i =
           { s with
             nodeStatus := mapSet s.nodeStatus t.id .Running,
             statusEvents := s.statusEvents ++ [⟨t.id, .Running⟩],
             tasks := s.tasks.set i ⟨t.id, .running⟩ }) ∨
       (t.phase = .running ∧ taskStep s i = bodyStep s i t.id) ∨
       (t.phase = .terminalDone ∧
         taskStep s i =
           { s with sem := s.sem - 1, tasks := s.tasks.set i ⟨t.id, .finished⟩ }) ∨
       (t.phase = .finished ∧ taskStep s i = s))) := by
  rcases hget : s.tasks.get? i with _ | t
  · left
    refine ⟨rfl, ?_⟩
    unfold taskStep
    rw [hget]
  · right
    refine ⟨t, rfl, ?_⟩
    rcases hph : t.phase
    all_goals unfold taskStep
    all_goals simp only [hget, hph]
    · by_cases hsem : s.sem < s.maxConcurrent
      · exact Or.inr (Or.inl ⟨trivial, hsem, by rw [if_pos hsem]⟩)
      · exact Or.inl ⟨trivial, hsem, by rw [if_neg hsem]⟩
    · exact Or.inr (Or.inr (Or.inl ⟨trivial, trivial⟩))
    · exact Or.inr (Or.inr (Or.inr (Or.inl ⟨trivial, trivial⟩)))
    · exact Or.inr (Or.inr (Or.inr (Or.inr (Or.inl ⟨trivial, trivial⟩))))
    · exact Or.inr (Or.inr (Or.inr (Or.inr (Or.inr ⟨trivial, trivial⟩))))

end StepShapeLemmas

section PropagateLemmas

theorem propagate_inDegree (es : List (NodeID × NodeID)) :
    ∀ (inDeg : List (NodeID × Int)) (ts : List NodeTask) (x : NodeID),
      (mapGet (propagate es inDeg ts).1 x).getD 0 =
        (mapGet inDeg x).getD 0 - (es.countP (fun e => decide (e.2 = x)) : Int) := by
  induction es with
  | nil => intro inDeg ts x; simp [propagate]
  | cons e rest ih =>
    intro inDeg ts x
    simp only [propagate]
    rw [ih, List.countP_cons]
    by_cases hx : e.2 = x
    · rw [hx, mapGet_mapSet_self]
      simp [hx]
      omega
    · rw [mapGet_mapSet_ne _ _ _ _ (fun hh => hx hh.symm)]
      simp [hx]

theorem propagate_tasks (es : List (NodeID × NodeID)) :
    ∀ (inDeg : List (NodeID × Int)) (ts : List NodeTask),
      ∃ ex, (propagate es inDeg ts).2 = ts ++ ex ∧
        ∀ t ∈ ex, t.phase = .waitSem ∧ ∃ e ∈ es, t.id = e.2 := by
  induction es with
  | nil =>
    intro inDeg ts
    exact ⟨[], by simp [propagate]⟩
  | cons e rest ih =>
    intro inDeg ts
    simp only [propagate]
    by_cases hd : (mapGet inDeg e.2).getD 0 - 1 = 0
    · rw [if_pos hd]
      obtain ⟨ex, hex, hall⟩ := ih (mapSet inDeg e.2 ((mapGet inDeg e.2).getD 0 - 1))
        (ts ++ [⟨e.2, .waitSem⟩])
      refine ⟨⟨e.2, .waitSem⟩ :: ex, ?_, ?_⟩
      · rw [hex, List.append_assoc]
        rfl
      · intro t ht
        rw [List.mem_cons] at ht
        rcases ht with rfl | ht
        · exact ⟨rfl, e, List.mem_cons_self _ _, rfl⟩
        · obtain ⟨hph, e', he', hid⟩ := hall t ht
          exact ⟨hph, e', List.mem_cons_of_mem _ he', hid⟩
    · rw [if_neg hd]
      obtain ⟨ex, hex, hall⟩ := ih (mapSet inDeg e.2 ((mapGet inDeg e.2).getD 0 - 1)) ts
      refine ⟨ex, hex, ?_⟩
      intro t ht
      obtain ⟨hph, e', he', hid⟩ := hall t ht
      exact ⟨hph, e', List.mem_cons_of_mem _ he', hid⟩

theorem hasTask_append_left {ts ex : List NodeTask} {x : NodeID} (h : hasTask ts x) :
    hasTask (ts ++ ex) x := by
  obtain ⟨t, ht, hid⟩ := h
  exact ⟨t, List.mem_append_left _ ht, hid⟩

theorem hasPreBodyTask_append_left {ts ex : List NodeTask} {x : NodeID}
    (h : hasPreBodyTask ts x) : hasPreBodyTask (ts ++ ex) x := by
  obtain ⟨t, ht, hid, hph⟩ := h
  exact ⟨t, List.mem_append_left _ ht, hid, hph⟩

theorem propagate_release (edges : List (NodeID × NodeID)) (seedQ keys : List NodeID)
    (es : List (NodeID × NodeID)) :
    ∀ (inDeg : List (NodeID × Int)) (ts : List NodeTask),
      (∀ e ∈ es, 1 ≤ countInEdges edges e.2) →
      (∀ id ∈ keys, (mapGet inDeg id).getD 0 ≤ 0 →
        hasTask ts id ∨ (id ∈ seedQ ∧ countInEdges edges id = 0 ∧
          (mapGet inDeg id).getD 0 = 0)) →
      ∀ id ∈ keys, (mapGet (propagate es inDeg ts).1 id).getD 0 ≤ 0 →
        hasTask (propagate es inDeg ts).2 id ∨
          (id ∈ seedQ ∧ countInEdges edges id = 0 ∧
            (mapGet (propagate es inDeg ts).1 id).getD 0 = 0) := by
  induction es with
  | nil =>
    intro inDeg ts _ hQ id hid hle
    simpa [propagate] using hQ id hid (by simpa [propagate] using hle)
  | cons e rest ih =>
    intro inDeg ts hes hQ
    simp only [propagate]
    apply ih
    · exact fun e' he' => hes e' (List.mem_cons_of_mem _ he')
    · intro x hx hle
      by_cases hxe : x = e.2
      · subst hxe
        by_cases hd : (mapGet inDeg e.2).getD 0 - 1 = 0
        · rw [if_pos hd]
          exact Or.inl ⟨⟨e.2, .waitSem⟩, List.mem_append_right _ (List.mem_cons_self _ _), rfl⟩
        · rw [if_neg hd]
          rw [mapGet_mapSet_self] at hle
          simp only [Option.getD_some] at hle
          have hpos : 1 ≤ countInEdges edges e.2 := hes e (List.mem_cons_self _ _)
          have hold : (mapGet inDeg e.2).getD 0 ≤ 0 := by omega
          rcases hQ e.2 hx hold with hT | ⟨_, hc, _⟩
          · exact Or.inl hT
          · omega
      · have hget : (mapGet (mapSet inDeg e.2 ((mapGet inDeg e.2).getD 0 - 1)) x) =
            mapGet inDeg x := mapGet_mapSet_ne _ _ _ _ hxe
        rw [hget] at hle
        by_cases hd : (mapGet inDeg e.2).getD 0 - 1 = 0
        · rw [if_pos hd]
          rcases hQ x hx hle with hT | ⟨hs, hc, hz⟩
          · exact Or.inl (hasTask_append_left hT)
          · exact Or.inr ⟨hs, hc, by rw [hget]; exact hz⟩
        · rw [if_neg hd]
          rcases hQ x hx hle with hT | ⟨hs, hc, hz⟩
          · exact Or.inl hT
          · exact Or.inr ⟨hs, hc, by rw [hget]; exact hz⟩

end PropagateLemmas

section InvHelpers

theorem get?_lt_length {α : Type} {l : List α} {i : Nat} {a : α}
    (h : l.get? i = some a) : i < l.length := by
  by_contra hlen
  rw [List.get?_eq_none.mpr (by omega)] at h
  cases h

theorem statusOf_set (m : List (NodeID × NodeStatus)) (k : NodeID) (v : NodeStatus)
    (y : NodeID) :
    (mapGet (mapSet m k v) y).getD .Pending =
      if y = k then v else (mapGet m y).getD .Pending := by
  by_cases hy : y = k
  · subst hy
    rw [mapGet_mapSet_self, if_pos rfl]
    rfl
  · rw [mapGet_mapSet_ne _ _ _ _ hy, if_neg hy]

theorem hasTask_set {ts : List NodeTask} {i : Nat} {t : NodeTask} (ph : Phase)
    {x : NodeID} (hget : ts.get? i = some t) (h : hasTask ts x) :
    hasTask (ts.set i ⟨t.id, ph⟩) x := by
  obtain ⟨t', ht', hid⟩ := h
  by_cases hEq : t' = t
  · subst hEq
    exact ⟨⟨t'.id, ph⟩, mem_set_self _ _ _ (get?_lt_length hget), hid⟩
  · exact ⟨t', mem_set_of_ne ht' hget hEq, hid⟩

theorem hasTask_of_set {ts : List NodeTask} {i : Nat} {t : NodeTask} {ph : Phase}
    {x : NodeID} (hget : ts.get? i = some t) (h : hasTask (ts.set i ⟨t.id, ph⟩) x) :
    hasTask ts x := by
  obtain ⟨t', ht', hid⟩ := h
  rcases List.mem_or_eq_of_mem_set ht' with hmem | rfl
  · exact ⟨t', hmem, hid⟩
  · exact ⟨t, List.get?_mem hget, hid⟩

theorem hasPreBodyTask_set {ts : List NodeTask} {i : Nat} {t : NodeTask} {ph : Phase}
    {x : NodeID} (hget : ts.get? i = some t) (hph : preBodyB ph = true)
    (h : hasPreBodyTask ts x) : hasPreBodyTask (ts.set i ⟨t.id, ph⟩) x := by
  obtain ⟨t', ht', hid, hpb⟩ := h
  by_cases hEq : t' = t
  · subst hEq
    exact ⟨⟨t'.id, ph⟩, mem_set_self _ _ _ (get?_lt_length hget), hid, hph⟩
  · exact ⟨t', mem_set_of_ne ht' hget hEq, hid, hpb⟩

theorem hasPreBodyTask_set_of_phase_ne {ts : List NodeTask} {i : Nat} {t : NodeTask}
    {ph : Phase} {x : NodeID} (hget : ts.get? i = some t)
    (hnot : preBodyB t.phase = false) (h : hasPreBodyTask ts x) :
    hasPreBodyTask (ts.set i ⟨t.id, ph⟩) x := by
  obtain ⟨t', ht', hid, hpb⟩ := h
  have hEq : t' ≠ t := by
    intro hh
    rw [hh, hnot] at hpb
    cases hpb
  exact ⟨t', mem_set_of_ne ht' hget hEq, hid, hpb⟩

theorem countP_or_disjoint {α : Type} (p q : α → Bool) :
    ∀ (l : List α), (∀ a ∈ l, ¬(p a = true ∧ q a = true)) →
      l.countP (fun a => p a || q a) = l.countP p + l.countP q := by
  intro l
  induction l with
  | nil => intro _; simp
  | cons a l ih =>
    intro hdis
    have hrec := ih (fun a' ha' => hdis a' (List.mem_cons_of_mem _ ha'))
    have hhead := hdis a (List.mem_cons_self _ _)
    rw [List.countP_cons, List.countP_cons, List.countP_cons, hrec]
    by_cases hp : p a = true
    · have hq : ¬(q a = true) := fun hq => hhead ⟨hp, hq⟩
      simp [hp, hq]
      omega
    · by_cases hq : q a = true
      · simp [hp, hq]
        omega
      · simp [hp, hq]

theorem midCount_append_waitSem (ts ex : List NodeTask)
    (hall : ∀ t ∈ ex, t.phase = .waitSem) :
    midCount (ts ++ ex) = midCount ts := by
  unfold midCount
  rw [List.countP_append]
  have : ex.countP (fun t => slotHeldB t.phase) = 0 := by
    rw [List.countP_eq_zero]
    intro t ht
    rw [hall t ht]
    simp [slotHeldB]
  omega

theorem completedPreds_mono (s s' : ExecState) (hE : s'.edges = s.edges)
    (hst : ∀ y, statusOf s' y = .Completed → statusOf s y = .Completed) (x : NodeID) :
    completedPreds s' x ≤ completedPreds s x := by
  unfold completedPreds
  rw [hE]
  apply List.countP_mono_left
  intro e _ hb
  simp only [Bool.and_eq_true, decide_eq_true_eq] at hb ⊢
  exact ⟨hb.1, hst _ hb.2⟩

theorem completedPreds_set_completed (s s' : ExecState) (tid : NodeID)
    (hE : s'.edges = s.edges)
    (hst : ∀ y, statusOf s' y = if y = tid then .Completed else statusOf s y)
    (hOld : ¬(statusOf s tid = .Completed)) (x : NodeID) :
    completedPreds s' x = completedPreds s x +
      s.edges.countP (fun e => decide (e.2 = x) && decide (e.1 = tid)) := by
  unfold completedPreds
  rw [hE]
  have hcongr : (s.edges.countP
      (fun e => decide (e.2 = x) && decide (statusOf s' e.1 = .Completed))) =
      s.edges.countP (fun e =>
        (decide (e.2 = x) && decide (statusOf s e.1 = .Completed)) ||
        (decide (e.2 = x) && decide (e.1 = tid))) := by
    apply List.countP_congr
    intro e _
    have hy := hst e.1
    by_cases he1 : e.1 = tid
    · rw [if_pos he1] at hy
      rw [he1] at hy ⊢
      simp [hy, hOld]
    · rw [if_neg he1] at hy
      simp [hy, he1]
  rw [hcongr]
  apply countP_or_disjoint
  intro e _
  rintro ⟨h1, h2⟩
  simp only [Bool.and_eq_true, decide_eq_true_eq] at h1 h2
  exact hOld (h2.2 ▸ h1.2)

theorem completedPreds_congr (s s' : ExecState) (hE : s'.edges = s.edges)
    (hst : ∀ y, statusOf s' y = .Completed ↔ statusOf s y = .Completed) (x : NodeID) :
    completedPreds s' x = completedPreds s x := by
  unfold completedPreds
  rw [hE]
  apply List.countP_congr
  intro e _
  simp only [Bool.and_eq_true, decide_eq_true_eq]
  constructor
  · rintro ⟨h1, h2⟩; exact ⟨h1, (hst _).mp h2⟩
  · rintro ⟨h1, h2⟩; exact ⟨h1, (hst _).mpr h2⟩

end InvHelpers

section InvPreservation

theorem schedInv_seedStep (s : ExecState) (h : SchedInv s) : SchedInv (seedStep s) := by
  rcases seedStep_shape s with ⟨hq, heq⟩ | ⟨id, rest, hq, ⟨hz, heq⟩ | ⟨hz, heq⟩⟩
  · rw [heq]; exact h
  · rw [heq]
    have hidmem : id ∈ s.seedQueue := by rw [hq]; exact List.mem_cons_self _ _
    refine ⟨h.keys_nodup, h.edges_reg, ?_, ?_, h.sem_le, ?_, ?_, ?_, h.indeg_bound, ?_,
      h.completed_outputs⟩
    · intro t ht
      rw [List.mem_append] at ht
      rcases ht with ht | ht
      · exact h.tasks_reg t ht
      · rw [List.mem_singleton] at ht
        subst ht
        exact h.seed_reg id hidmem
    · intro x hx
      exact h.seed_reg x (by rw [hq]; exact List.mem_cons_of_mem _ hx)
    · rw [midCount_append_waitSem _ _ (by intro t ht; rw [List.mem_singleton] at ht; rw [ht])]
      exact h.mid_eq_sem
    · intro x hx
      obtain ⟨t, ht, hid, hph⟩ := h.running_task x hx
      exact ⟨t, List.mem_append_left _ ht, hid, hph⟩
    · intro x hxk hle
      rcases h.release_ready x hxk hle with hT | ⟨hsq, hc, hzz⟩
      · exact Or.inl (hasTask_append_left hT)
      · by_cases hxid : x = id
        · subst hxid
          exact Or.inl ⟨⟨x, .waitSem⟩,
            List.mem_append_right _ (List.mem_cons_self _ _), rfl⟩
        · rw [hq] at hsq
          rcases List.mem_cons.mp hsq with hcontr | hmem
          · exact absurd hcontr hxid
          · exact Or.inr ⟨hmem, hc, hzz⟩
    · intro herr x hx
      obtain ⟨t, ht, hid⟩ := hx
      rw [List.mem_append] at ht
      rcases ht with ht | ht
      · rcases h.done_completed herr x ⟨t, ht, hid⟩ with hpb | hcomp
        · exact Or.inl (hasPreBodyTask_append_left hpb)
        · exact Or.inr hcomp
      · rw [List.mem_singleton] at ht
        subst ht
        exact Or.inl ⟨⟨id, .waitSem⟩,
          List.mem_append_right _ (List.mem_cons_self _ _), hid, rfl⟩
  · rw [heq]
    refine ⟨h.keys_nodup, h.edges_reg, h.tasks_reg, ?_, h.sem_le, h.mid_eq_sem,
      h.running_task, ?_, h.indeg_bound, h.done_completed, h.completed_outputs⟩
    · intro x hx
      exact h.seed_reg x (by rw [hq]; exact List.mem_cons_of_mem _ hx)
    · intro x hxk hle
      rcases h.release_ready x hxk hle with hT | ⟨hsq, hc, hzz⟩
      · exact Or.inl hT
      · by_cases hxid : x = id
        · subst hxid
          exact absurd hzz hz
        · rw [hq] at hsq
          rcases List.mem_cons.mp hsq with hcontr | hmem
          · exact absurd hcontr hxid
          · exact Or.inr ⟨hmem, hc, hzz⟩


theorem schedInv_acquire (s s' : ExecState) (i : Nat) (t : NodeTask)
    (hget : s.tasks.get? i = some t) (hph : t.phase = .waitSem)
    (hsem : s.sem < s.maxConcurrent)
    (hN : s'.nodeMap = s.nodeMap) (hE : s'.edges = s.edges)
    (hD : s'.inDegree = s.inDegree) (hS : s'.nodeStatus = s.nodeStatus)
    (hMax : s'.maxConcurrent = s.maxConcurrent) (hO : s'.outputs = s.outputs)
    (hL : s'.errLog = s.errLog) (hSem : s'.sem = s.sem + 1)
    (hQ : s'.seedQueue = s.seedQueue)
    (hT : s'.tasks = s.tasks.set i ⟨t.id, .gotSem⟩)
    (h : SchedInv s) : SchedInv s' := by
  have hreg : t.id ∈ mapKeys s.nodeMap := h.tasks_reg t (List.get?_mem hget)
  have hstat : ∀ y, statusOf s' y = statusOf s y := by
    intro y
    simp only [statusOf, hS]
  have hcp : ∀ x, completedPreds s' x = completedPreds s x := by
    intro x
    exact completedPreds_congr s s' hE (fun y => by rw [hstat y]) x
  constructor
  · rw [hN]; exact h.keys_nodup
  · rw [hE, hN]; exact h.edges_reg
  · rw [hT, hN]
    intro t' ht'
    rcases List.mem_or_eq_of_mem_set ht' with hmem | rfl
    · exact h.tasks_reg t' hmem
    · exact hreg
  · rw [hQ, hN]; exact h.seed_reg
  · rw [hSem, hMax]; omega
  · rw [hT, hSem]
    have hc := countP_set_add s.tasks i t ⟨t.id, Phase.gotSem⟩
      (fun u => slotHeldB u.phase) hget
    dsimp only at hc
    rw [hph, show (if slotHeldB Phase.waitSem = true then (1:Nat) else 0) = 0 from rfl,
      show (if slotHeldB Phase.gotSem = true then (1:Nat) else 0) = 1 from rfl] at hc
    have hm := h.mid_eq_sem
    unfold midCount at hm ⊢
    omega
  · intro x hx
    rw [hstat x] at hx
    rw [hT]
    obtain ⟨t', ht', hid, hphr⟩ := h.running_task x hx
    have hne : t' ≠ t := by
      intro hEq
      rw [hEq, hph] at hphr
      simp at hphr
    exact ⟨t', mem_set_of_ne ht' hget hne, hid, hphr⟩
  · rw [hN, hD, hT, hQ, hE]
    intro x hxk hle
    rcases h.release_ready x hxk hle with hT' | hroot
    · exact Or.inl (hasTask_set _ hget hT')
    · exact Or.inr hroot
  · intro x
    rw [hD, hE, hcp x]
    exact h.indeg_bound x
  · rw [hL, hT]
    intro herr x hx
    rcases h.done_completed herr x (hasTask_of_set hget hx) with hpb | hcomp
    · exact Or.inl (hasPreBodyTask_set hget rfl hpb)
    · rw [hstat x]
      exact Or.inr hcomp
  · intro x hx
    rw [hstat x] at hx
    rw [hO]
    exact h.completed_outputs x hx

theorem schedInv_setRunning (s s' : ExecState) (i : Nat) (t : NodeTask)
    (hget : s.tasks.get? i = some t) (hph : t.phase = .gotSem)
    (hN : s'.nodeMap = s.nodeMap) (hE : s'.edges = s.edges)
    (hD : s'.inDegree = s.inDegree)
    (hS : s'.nodeStatus = mapSet s.nodeStatus t.id .Running)
    (hMax : s'.maxConcurrent = s.maxConcurrent) (hO : s'.outputs = s.outputs)
    (hL : s'.errLog = s.errLog) (hSem : s'.sem = s.sem)
    (hQ : s'.seedQueue = s.seedQueue)
    (hT : s'.tasks = s.tasks.set i ⟨t.id, .running⟩)
    (h : SchedInv s) : SchedInv s' := by
  have hreg : t.id ∈ mapKeys s.nodeMap := h.tasks_reg t (List.get?_mem hget)
  have hstat : ∀ y, statusOf s' y = if y = t.id then .Running else statusOf s y := by
    intro y
    simp only [statusOf, hS]
    exact statusOf_set _ _ _ y
  constructor
  · rw [hN]; exact h.keys_nodup
  · rw [hE, hN]; exact h.edges_reg
  · rw [hT, hN]
    intro t' ht'
    rcases List.mem_or_eq_of_mem_set ht' with hmem | rfl
    · exact h.tasks_reg t' hmem
    · exact hreg
  · rw [hQ, hN]; exact h.seed_reg
  · rw [hSem, hMax]; exact h.sem_le
  · rw [hT, hSem]
    have hc := countP_set_add s.tasks i t ⟨t.id, Phase.running⟩
      (fun u => slotHeldB u.phase) hget
    dsimp only at hc
    rw [hph, show (if slotHeldB Phase.gotSem = true then (1:Nat) else 0) = 1 from rfl,
      show (if slotHeldB Phase.running = true then (1:Nat) else 0) = 1 from rfl] at hc
    have hm := h.mid_eq_sem
    unfold midCount at hm ⊢
    omega
  · intro x hx
    rw [hstat x] at hx
    rw [hT]
    by_cases hxt : x = t.id
    · exact ⟨⟨t.id, .running⟩, mem_set_self _ _ _ (get?_lt_length hget), hxt.symm, rfl⟩
    · rw [if_neg hxt] at hx
      obtain ⟨t', ht', hid, hphr⟩ := h.running_task x hx
      have hne : t' ≠ t := by
        intro hEq
        rw [hEq, hph] at hphr
        simp at hphr
      exact ⟨t', mem_set_of_ne ht' hget hne, hid, hphr⟩
  · rw [hN, hD, hT, hQ, hE]
    intro x hxk hle
    rcases h.release_ready x hxk hle with hT' | hroot
    · exact Or.inl (hasTask_set _ hget hT')
    · exact Or.inr hroot
  · intro x
    rw [hD, hE]
    have hmono : completedPreds s' x ≤ completedPreds s x := by
      apply completedPreds_mono s s' hE (fun y hy => ?_) x
      rw [hstat y] at hy
      by_cases hyt : y = t.id
      · rw [if_pos hyt] at hy; cases hy
      · rwa [if_neg hyt] at hy
    have hb := h.indeg_bound x
    omega
  · rw [hL, hT]
    intro herr x hx
    by_cases hxt : x = t.id
    · exact Or.inl ⟨⟨t.id, .running⟩, mem_set_self _ _ _ (get?_lt_length hget),
        hxt.symm, rfl⟩
    · rcases h.done_completed herr x (hasTask_of_set hget hx) with hpb | hcomp
      · exact Or.inl (hasPreBodyTask_set hget rfl hpb)
      · refine Or.inr ?_
        rw [hstat x, if_neg hxt]
        exact hcomp
  · intro x hx
    rw [hstat x] at hx
    rw [hO]
    by_cases hxt : x = t.id
    · rw [if_pos hxt] at hx; cases hx
    · rw [if_neg hxt] at hx
      exact h.completed_outputs x hx

theorem schedInv_release (s s' : ExecState) (i : Nat) (t : NodeTask)
    (hget : s.tasks.get? i = some t) (hph : t.phase = .terminalDone)
    (hN : s'.nodeMap = s.nodeMap) (hE : s'.edges = s.edges)
    (hD : s'.inDegree = s.inDegree) (hS : s'.nodeStatus = s.nodeStatus)
    (hMax : s'.maxConcurrent = s.maxConcurrent) (hO : s'.outputs = s.outputs)
    (hL : s'.errLog = s.errLog) (hSem : s'.sem = s.sem - 1)
    (hQ : s'.seedQueue = s.seedQueue)
    (hT : s'.tasks = s.tasks.set i ⟨t.id, .finished⟩)
    (h : SchedInv s) : SchedInv s' := by
  have hreg : t.id ∈ mapKeys s.nodeMap := h.tasks_reg t (List.get?_mem hget)
  have hstat : ∀ y, statusOf s' y = statusOf s y := by
    intro y
    simp only [statusOf, hS]
  have hcp : ∀ x, completedPreds s' x = completedPreds s x := by
    intro x
    exact completedPreds_congr s s' hE (fun y => by rw [hstat y]) x
  constructor
  · rw [hN]; exact h.keys_nodup
  · rw [hE, hN]; exact h.edges_reg
  · rw [hT, hN]
    intro t' ht'
    rcases List.mem_or_eq_of_mem_set ht' with hmem | rfl
    · exact h.tasks_reg t' hmem
    · exact hreg
  · rw [hQ, hN]; exact h.seed_reg
  · rw [hSem, hMax]
    have := h.sem_le
    omega
  · rw [hT, hSem]
    have hc := countP_set_add s.tasks i t ⟨t.id, Phase.finished⟩
      (fun u => slotHeldB u.phase) hget
    dsimp only at hc
    rw [hph, show (if slotHeldB Phase.terminalDone = true then (1:Nat) else 0) = 1 from rfl,
      show (if slotHeldB Phase.finished = true then (1:Nat) else 0) = 0 from rfl] at hc
    have hm := h.mid_eq_sem
    have hsem1 : 0 < List.countP (fun u => slotHeldB u.phase) s.tasks :=
      List.countP_pos_iff.mpr ⟨t, List.get?_mem hget, by rw [hph]; rfl⟩
    unfold midCount at hm ⊢
    omega
  · intro x hx
    rw [hstat x] at hx
    rw [hT]
    obtain ⟨t', ht', hid, hphr⟩ := h.running_task x hx
    have hne : t' ≠ t := by
      intro hEq
      rw [hEq, hph] at hphr
      simp at hphr
    exact ⟨t', mem_set_of_ne ht' hget hne, hid, hphr⟩
  · rw [hN, hD, hT, hQ, hE]
    intro x hxk hle
    rcases h.release_ready x hxk hle with hT' | hroot
    · exact Or.inl (hasTask_set _ hget hT')
    · exact Or.inr hroot
  · intro x
    rw [hD, hE, hcp x]
    exact h.indeg_bound x
  · rw [hL, hT]
    intro herr x hx
    rcases h.done_completed herr x (hasTask_of_set hget hx) with hpb | hcomp
    · exact Or.inl (hasPreBodyTask_set_of_phase_ne hget (by rw [hph]; rfl) hpb)
    · rw [hstat x]
      exact Or.inr hcomp
  · intro x hx
    rw [hstat x] at hx
    rw [hO]
    exact h.completed_outputs x hx

theorem schedInv_bodyError (s s' : ExecState) (i : Nat) (t : NodeTask) (n' : Node)
    (err : String)
    (hget : s.tasks.get? i = some t) (hph : t.phase = .running)
    (hN : s'.nodeMap = mapSet s.nodeMap t.id n')
    (hE : s'.edges = s.edges) (hD : s'.inDegree = s.inDegree)
    (hS : s'.nodeStatus = mapSet s.nodeStatus t.id .Error)
    (hMax : s'.maxConcurrent = s.maxConcurrent) (hO : s'.outputs = s.outputs)
    (hL : s'.errLog = s.errLog ++ [err]) (hSem : s'.sem = s.sem)
    (hQ : s'.seedQueue = s.seedQueue)
    (hT : s'.tasks = s.tasks.set i ⟨t.id, .terminalDone⟩)
    (h : SchedInv s) : SchedInv s' := by
  have hreg : t.id ∈ mapKeys s.nodeMap := h.tasks_reg t (List.get?_mem hget)
  have hkeys : mapKeys (mapSet s.nodeMap t.id n') = mapKeys s.nodeMap :=
    mapKeys_mapSet_of_mem _ _ _ hreg
  have hstat : ∀ y, statusOf s' y = if y = t.id then .Error else statusOf s y := by
    intro y
    simp only [statusOf, hS]
    exact statusOf_set _ _ _ y
  constructor
  · rw [hN, hkeys]; exact h.keys_nodup
  · rw [hE, hN, hkeys]; exact h.edges_reg
  · rw [hT, hN, hkeys]
    intro t' ht'
    rcases List.mem_or_eq_of_mem_set ht' with hmem | rfl
    · exact h.tasks_reg t' hmem
    · exact hreg
  · rw [hQ, hN, hkeys]; exact h.seed_reg
  · rw [hSem, hMax]; exact h.sem_le
  · rw [hT, hSem]
    have hc := countP_set_add s.tasks i t ⟨t.id, Phase.terminalDone⟩
      (fun u => slotHeldB u.phase) hget
    dsimp only at hc
    rw [hph, show (if slotHeldB Phase.running = true then (1:Nat) else 0) = 1 from rfl,
      show (if slotHeldB Phase.terminalDone = true then (1:Nat) else 0) = 1 from rfl] at hc
    have hm := h.mid_eq_sem
    unfold midCount at hm ⊢
    omega
  · intro x hx
    rw [hstat x] at hx
    rw [hT]
    by_cases hxt : x = t.id
    · rw [if_pos hxt] at hx; cases hx
    · rw [if_neg hxt] at hx
      obtain ⟨t', ht', hid, hphr⟩ := h.running_task x hx
      have hne : t' ≠ t := by
        intro hEq
        apply hxt
        rw [← hid, hEq]
      exact ⟨t', mem_set_of_ne ht' hget hne, hid, hphr⟩
  · rw [hN, hkeys, hD, hT, hQ, hE]
    intro x hxk hle
    rcases h.release_ready x hxk hle with hT' | hroot
    · exact Or.inl (hasTask_set _ hget hT')
    · exact Or.inr hroot
  · intro x
    rw [hD, hE]
    have hmono : completedPreds s' x ≤ completedPreds s x := by
      apply completedPreds_mono s s' hE (fun y hy => ?_) x
      rw [hstat y] at hy
      by_cases hyt : y = t.id
      · rw [if_pos hyt] at hy; cases hy
      · rwa [if_neg hyt] at hy
    have hb := h.indeg_bound x
    omega
  · intro herr
    rw [hL] at herr
    simp at herr
  · intro x hx
    rw [hstat x] at hx
    rw [hO]
    by_cases hxt : x = t.id
    · rw [if_pos hxt] at hx; cases hx
    · rw [if_neg hxt] at hx
      exact h.completed_outputs x hx

theorem schedInv_bodyOk (s s' : ExecState) (i : Nat) (t : NodeTask) (n' : Node)
    (hget : s.tasks.get? i = some t) (hph : t.phase = .running)
    (hN : s'.nodeMap = mapSet s.nodeMap t.id n')
    (hE : s'.edges = s.edges)
    (hD : s'.inDegree = (propagate (s.edges.filter (fun e => decide (e.1 = t.id)))
      s.inDegree (s.tasks.set i ⟨t.id, .terminalDone⟩)).1)
    (hS : s'.nodeStatus = mapSet s.nodeStatus t.id .Completed)
    (hMax : s'.maxConcurrent = s.maxConcurrent)
    (hO : s'.outputs = mapSet s.outputs t.id n'.GetOutputs)
    (hL : s'.errLog = s.errLog) (hSem : s'.sem = s.sem)
    (hQ : s'.seedQueue = s.seedQueue)
    (hT : s'.tasks = (propagate (s.edges.filter (fun e => decide (e.1 = t.id)))
      s.inDegree (s.tasks.set i ⟨t.id, .terminalDone⟩)).2)
    (h : SchedInv s) : SchedInv s' := by
  have hreg : t.id ∈ mapKeys s.nodeMap := h.tasks_reg t (List.get?_mem hget)
  have hkeys : mapKeys (mapSet s.nodeMap t.id n') = mapKeys s.nodeMap :=
    mapKeys_mapSet_of_mem _ _ _ hreg
  have hstat : ∀ y, statusOf s' y = if y = t.id then .Completed else statusOf s y := by
    intro y
    simp only [statusOf, hS]
    exact statusOf_set _ _ _ y
  obtain ⟨ex, hex, hall⟩ := propagate_tasks
    (s.edges.filter (fun e => decide (e.1 = t.id))) s.inDegree
    (s.tasks.set i ⟨t.id, .terminalDone⟩)
  constructor
  · rw [hN, hkeys]; exact h.keys_nodup
  · rw [hE, hN, hkeys]; exact h.edges_reg
  · rw [hT, hex, hN, hkeys]
    intro t' ht'
    rw [List.mem_append] at ht'
    rcases ht' with ht' | ht'
    · rcases List.mem_or_eq_of_mem_set ht' with hmem | rfl
      · exact h.tasks_reg t' hmem
      · exact hreg
    · obtain ⟨hphw, e, he, hid⟩ := hall t' ht'
      rw [List.mem_filter] at he
      rw [hid]
      exact (h.edges_reg e he.1).2
  · rw [hQ, hN, hkeys]; exact h.seed_reg
  · rw [hSem, hMax]; exact h.sem_le
  · rw [hT, hex, hSem]
    rw [midCount_append_waitSem _ _ (fun u hu => (hall u hu).1)]
    have hc := countP_set_add s.tasks i t ⟨t.id, Phase.terminalDone⟩
      (fun u => slotHeldB u.phase) hget
    dsimp only at hc
    rw [hph, show (if slotHeldB Phase.running = true then (1:Nat) else 0) = 1 from rfl,
      show (if slotHeldB Phase.terminalDone = true then (1:Nat) else 0) = 1 from rfl] at hc
    have hm := h.mid_eq_sem
    unfold midCount at hm ⊢
    omega
  · intro x hx
    rw [hstat x] at hx
    rw [hT, hex]
    by_cases hxt : x = t.id
    · rw [if_pos hxt] at hx; cases hx
    · rw [if_neg hxt] at hx
      obtain ⟨t', ht', hid, hphr⟩ := h.running_task x hx
      have hne : t' ≠ t := by
        intro hEq
        apply hxt
        rw [← hid, hEq]
      exact ⟨t', List.mem_append_left _ (mem_set_of_ne ht' hget hne), hid, hphr⟩
  · rw [hN, hkeys, hD, hT, hQ, hE]
    apply propagate_release
    · intro e he
      rw [List.mem_filter] at he
      unfold countInEdges
      exact List.countP_pos_iff.mpr ⟨e, he.1, by simp⟩
    · intro x hxk hle
      rcases h.release_ready x hxk hle with hT' | hroot
      · exact Or.inl (hasTask_set _ hget hT')
      · exact Or.inr hroot
  · intro x
    rw [hD, hE]
    rw [propagate_inDegree]
    have hk : (s.edges.filter (fun e => decide (e.1 = t.id))).countP
        (fun e => decide (e.2 = x)) =
        s.edges.countP (fun e => decide (e.2 = x) && decide (e.1 = t.id)) :=
      List.countP_filter _ _ _
    have hb := h.indeg_bound x
    by_cases hOld : statusOf s t.id = .Completed
    · have hcp : completedPreds s' x = completedPreds s x := by
        apply completedPreds_congr s s' hE (fun y => ?_) x
        rw [hstat y]
        by_cases hyt : y = t.id
        · rw [if_pos hyt, hyt]
          exact ⟨fun _ => hOld, fun _ => rfl⟩
        · rw [if_neg hyt]
      rw [hcp, hk]
      omega
    · have hcp := completedPreds_set_completed s s' t.id hE hstat hOld x
      rw [hcp, hk]
      push_cast
      omega
  · rw [hL, hT, hex]
    intro herr x hx
    obtain ⟨t', ht', hid⟩ := hx
    rw [List.mem_append] at ht'
    rcases ht' with ht' | ht'
    · by_cases hxt : x = t.id
      · refine Or.inr ?_
        rw [hstat x, if_pos hxt]
      · have hold : hasTask s.tasks x := by
          rcases List.mem_or_eq_of_mem_set ht' with hmem | rfl
          · exact ⟨t', hmem, hid⟩
          · exact absurd hid.symm hxt
        rcases h.done_completed herr x hold with hpb | hcomp
        · obtain ⟨u, hu, huid, hupb⟩ := hpb
          have hne : u ≠ t := by
            intro hEq
            apply hxt
            rw [← huid, hEq]
          exact Or.inl ⟨u, List.mem_append_left _ (mem_set_of_ne hu hget hne), huid, hupb⟩
        · refine Or.inr ?_
          rw [hstat x, if_neg hxt]
          exact hcomp
    · refine Or.inl ⟨t', List.mem_append_right _ ht', hid, ?_⟩
      rw [(hall t' ht').1]
      rfl
  · intro x hx
    rw [hO]
    by_cases hxt : x = t.id
    · rw [hxt, mapGet_mapSet_self]
      rfl
    · rw [hstat x, if_neg hxt] at hx
      rw [mapGet_mapSet_ne _ _ _ _ hxt]
      exact h.completed_outputs x hx

end InvPreservation

section RunLemmas

theorem schedInv_runStep (s : ExecState) (st : SchedStep) (h : SchedInv s) :
    SchedInv (runStep s st) := by
  cases st with
  | seed => exact schedInv_seedStep s h
  | task i =>
    show SchedInv (taskStep s i)
    rcases taskStep_shape s i with ⟨_, heq⟩ | ⟨t, hget, hcase⟩
    · rw [heq]; exact h
    · rcases hcase with ⟨hph, hs, heq⟩ | ⟨hph, hs, heq⟩ | ⟨hph, heq⟩ | ⟨hph, heq⟩ |
        ⟨hph, heq⟩ | ⟨hph, heq⟩
      · rw [heq]; exact h
      · rw [heq]
        exact schedInv_acquire s _ i t hget hph hs rfl rfl rfl rfl rfl rfl rfl rfl rfl rfl h
      · rw [heq]
        exact schedInv_setRunning s _ i t hget hph rfl rfl rfl rfl rfl rfl rfl rfl rfl rfl h
      · rw [heq]
        rcases bodyStep_shape s i t.id with ⟨n', err, hbe⟩ | ⟨n', hbe⟩
        · rw [hbe]
          exact schedInv_bodyError s _ i t n' err hget hph rfl rfl rfl rfl rfl rfl rfl
            rfl rfl rfl h
        · rw [hbe]
          exact schedInv_bodyOk s _ i t n' hget hph rfl rfl rfl rfl rfl rfl rfl rfl
            rfl rfl h
      · rw [heq]
        exact schedInv_release s _ i t hget hph rfl rfl rfl rfl rfl rfl rfl rfl rfl rfl h
      · rw [heq]; exact h

theorem runStep_const (s : ExecState) (st : SchedStep) (h : SchedInv s) :
    (runStep s st).edges = s.edges ∧ (runStep s st).maxConcurrent = s.maxConcurrent ∧
      (runStep s st).inputs = s.inputs ∧
      mapKeys (runStep s st).nodeMap = mapKeys s.nodeMap ∧
      (runStep s st).seedQueue.length ≤ s.seedQueue.length := by
  cases st with
  | seed =>
    show (seedStep s).edges = s.edges ∧ (seedStep s).maxConcurrent = s.maxConcurrent ∧
      (seedStep s).inputs = s.inputs ∧
      mapKeys (seedStep s).nodeMap = mapKeys s.nodeMap ∧
      (seedStep s).seedQueue.length ≤ s.seedQueue.length
    rcases seedStep_shape s with ⟨hq, heq⟩ | ⟨id, rest, hq, ⟨hz, heq⟩ | ⟨hz, heq⟩⟩ <;>
      rw [heq] <;> refine ⟨rfl, rfl, rfl, rfl, ?_⟩ <;> simp [hq]
  | task i =>
    show (taskStep s i).edges = s.edges ∧ (taskStep s i).maxConcurrent = s.maxConcurrent ∧
      (taskStep s i).inputs = s.inputs ∧
      mapKeys (taskStep s i).nodeMap = mapKeys s.nodeMap ∧
      (taskStep s i).seedQueue.length ≤ s.seedQueue.length
    rcases taskStep_shape s i with ⟨_, heq⟩ | ⟨t, hget, hcase⟩
    · rw [heq]; exact ⟨rfl, rfl, rfl, rfl, le_refl _⟩
    · have hreg : t.id ∈ mapKeys s.nodeMap := h.tasks_reg t (List.get?_mem hget)
      rcases hcase with ⟨hph, hs, heq⟩ | ⟨hph, hs, heq⟩ | ⟨hph, heq⟩ | ⟨hph, heq⟩ |
        ⟨hph, heq⟩ | ⟨hph, heq⟩
      · rw [heq]; exact ⟨rfl, rfl, rfl, rfl, le_refl _⟩
      · rw [heq]; exact ⟨rfl, rfl, rfl, rfl, le_refl _⟩
      · rw [heq]; exact ⟨rfl, rfl, rfl, rfl, le_refl _⟩
      · rw [heq]
        rcases bodyStep_shape s i t.id with ⟨n', err, hbe⟩ | ⟨n', hbe⟩ <;> rw [hbe] <;>
          exact ⟨rfl, rfl, rfl, mapKeys_mapSet_of_mem _ _ _ hreg, le_refl _⟩
      · rw [heq]; exact ⟨rfl, rfl, rfl, rfl, le_refl _⟩
      · rw [heq]; exact ⟨rfl, rfl, rfl, rfl, le_refl _⟩

theorem runSched_inv_const (sched : List SchedStep) : ∀ s : ExecState, SchedInv s →
    SchedInv (runSched sched s) ∧ (runSched sched s).edges = s.edges ∧
      (runSched sched s).maxConcurrent = s.maxConcurrent ∧
      (runSched sched s).inputs = s.inputs ∧
      mapKeys (runSched sched s).nodeMap = mapKeys s.nodeMap := by
  induction sched with
  | nil => intro s h; exact ⟨h, rfl, rfl, rfl, rfl⟩
  | cons st rest ih =>
    intro s h
    have h1 := schedInv_runStep s st h
    have hc := runStep_const s st h
    obtain ⟨hi, he, hm, hin, hk⟩ := ih (runStep s st) h1
    exact ⟨hi, he.trans hc.1, hm.trans hc.2.1, hin.trans hc.2.2.1,
      hk.trans hc.2.2.2.1⟩

theorem execErr_runStep (s : ExecState) (st : SchedStep)
    (hb : s.execErr = s.errLog.getLast?) :
    (runStep s st).execErr = (runStep s st).errLog.getLast? := by
  cases st with
  | seed =>
    show (seedStep s).execErr = (seedStep s).errLog.getLast?
    rcases seedStep_shape s with ⟨hq, heq⟩ | ⟨id, rest, hq, ⟨hz, heq⟩ | ⟨hz, heq⟩⟩ <;>
      rw [heq] <;> exact hb
  | task i =>
    show (taskStep s i).execErr = (taskStep s i).errLog.getLast?
    rcases taskStep_shape s i with ⟨_, heq⟩ | ⟨t, hget, hcase⟩
    · rw [heq]; exact hb
    · rcases hcase with ⟨hph, hs, heq⟩ | ⟨hph, hs, heq⟩ | ⟨hph, heq⟩ | ⟨hph, heq⟩ |
        ⟨hph, heq⟩ | ⟨hph, heq⟩
      · rw [heq]; exact hb
      · rw [heq]; exact hb
      · rw [heq]; exact hb
      · rw [heq]
        rcases bodyStep_shape s i t.id with ⟨n', err, hbe⟩ | ⟨n', hbe⟩ <;> rw [hbe]
        · exact (List.getLast?_concat _).symm
        · exact hb
      · rw [heq]; exact hb
      · rw [heq]; exact hb

theorem execErr_runSched (sched : List SchedStep) : ∀ s : ExecState,
    s.execErr = s.errLog.getLast? →
    (runSched sched s).execErr = (runSched sched s).errLog.getLast? := by
  induction sched with
  | nil => intro s hb; exact hb
  | cons st rest ih => intro s hb; exact ih (runStep s st) (execErr_runStep s st hb)

end RunLemmas

section InitAndProgress

theorem wf_inDegree (dag : DAG) (hwf : dag.WF) :
    ∀ x, (mapGet dag.inDegree x).getD 0 = (countInEdges dag.edges x : Int) := by
  obtain ⟨w1, w2, w3, w4, w5⟩ := hwf
  intro x
  rcases hx : mapGet dag.inDegree x with _ | v
  · rw [mapGet_eq_none_iff] at hx
    have hc : countInEdges dag.edges x = 0 := by
      unfold countInEdges
      rw [List.countP_eq_zero]
      intro e he hdec
      rw [decide_eq_true_eq] at hdec
      exact hx (hdec ▸ w4 e he)
    simp [hc]
  · simp only [Option.getD_some]
    exact w3 (x, v) (mapGet_mem hx)

theorem schedInv_init (dag : DAG) (inputs : List (NodeID × List String))
    (sorted : List NodeID) (hwf : dag.WF)
    (hsort : topoSort (mapKeys dag.nodeMap) dag.edges = some sorted) :
    SchedInv (initState dag inputs sorted) := by
  have hid := wf_inDegree dag hwf
  obtain ⟨w1, w2, w3, w4, w5⟩ := hwf
  have hstatus : ∀ x, statusOf (initState dag inputs sorted) x = .Pending := by
    intro x
    show (mapGet dag.nodeStatus x).getD .Pending = .Pending
    rcases hx : mapGet dag.nodeStatus x with _ | v
    · rfl
    · simp only [Option.getD_some]
      exact w5 (x, v) (mapGet_mem hx)
  constructor
  · exact w1
  · exact w2
  · intro t ht
    exact absurd ht (List.not_mem_nil t)
  · intro x hx
    exact (topoSort_mem hsort x).mp hx
  · exact Nat.zero_le _
  · rfl
  · intro x hx
    have := (hstatus x).symm.trans hx
    cases this
  · intro x hxk hle
    have hle' : (countInEdges dag.edges x : Int) ≤ 0 := by
      rw [← hid x]
      exact hle
    have hc0 : countInEdges dag.edges x = 0 := by omega
    refine Or.inr ⟨(topoSort_mem hsort x).mpr hxk, hc0, ?_⟩
    show (mapGet dag.inDegree x).getD 0 = 0
    rw [hid x, hc0]
    rfl
  · intro x
    have hcp : completedPreds (initState dag inputs sorted) x = 0 := by
      unfold completedPreds
      rw [List.countP_eq_zero]
      intro e he
      simp [hstatus e.1]
    rw [hcp]
    show (mapGet dag.inDegree x).getD 0 ≤ (countInEdges dag.edges x : Int) - ((0 : Nat) : Int)
    rw [hid x]
    omega
  · intro _ x hx
    obtain ⟨t, ht, _⟩ := hx
    exact absurd ht (List.not_mem_nil t)
  · intro x hx
    have := (hstatus x).symm.trans hx
    cases this

theorem drained_finished {s : ExecState} (hd : s.drained = true) :
    s.seedQueue = [] ∧ ∀ t ∈ s.tasks, t.phase = .finished := by
  unfold ExecState.drained at hd
  rw [Bool.and_eq_true] at hd
  refine ⟨List.isEmpty_iff.mp hd.1, ?_⟩
  intro t ht
  exact of_decide_eq_true (List.all_eq_true.mp hd.2 t ht)

theorem progress (dag : DAG) (inputs : List (NodeID × List String))
    (sorted : List NodeID) (sched : List SchedStep) (hwf : dag.WF)
    (hsort : topoSort (mapKeys dag.nodeMap) dag.edges = some sorted)
    (hdr : (runSched sched (initState dag inputs sorted)).drained = true)
    (herr : (runSched sched (initState dag inputs sorted)).errLog = []) :
    ∀ x ∈ mapKeys dag.nodeMap,
      (mapGet (runSched sched (initState dag inputs sorted)).outputs x).isSome = true := by
  obtain ⟨hinv, hE, hM, hI, hK⟩ :=
    runSched_inv_const sched _ (schedInv_init dag inputs sorted hwf hsort)
  have hE' : (runSched sched (initState dag inputs sorted)).edges = dag.edges := hE
  have hK' : mapKeys (runSched sched (initState dag inputs sorted)).nodeMap =
      mapKeys dag.nodeMap := hK
  obtain ⟨hq0, hfin⟩ := drained_finished hdr
  have hcompleted : ∀ x, hasTask (runSched sched (initState dag inputs sorted)).tasks x →
      statusOf (runSched sched (initState dag inputs sorted)) x = .Completed := by
    intro x hx
    rcases hinv.done_completed herr x hx with hpb | hc
    · obtain ⟨u, hu, _, hupb⟩ := hpb
      rw [hfin u hu] at hupb
      cases hupb
    · exact hc
  have hspawn : ∀ l₂ l₁, sorted = l₁ ++ l₂ →
      (∀ u ∈ l₁, hasTask (runSched sched (initState dag inputs sorted)).tasks u) →
      ∀ u ∈ l₂, hasTask (runSched sched (initState dag inputs sorted)).tasks u := by
    intro l₂
    induction l₂ with
    | nil =>
      intro l₁ _ _ u hu
      cases hu
    | cons v l₂ ih =>
      intro l₁ hsplit hl₁ u hu
      have hvmem : v ∈ mapKeys dag.nodeMap := by
        refine (topoSort_mem hsort v).mp ?_
        rw [hsplit]
        exact List.mem_append_right _ (List.mem_cons_self _ _)
      have hvtask : hasTask (runSched sched (initState dag inputs sorted)).tasks v := by
        have hpreds : ∀ e ∈ dag.edges, e.2 = v →
            statusOf (runSched sched (initState dag inputs sorted)) e.1 = .Completed := by
          intro e he hev
          have hsrc : e.1 ∈ mapKeys dag.nodeMap := (hwf.2.1 e he).1
          have hedge : (e.1, v) ∈ dag.edges := by
            rw [← hev]
            exact he
          have hbefore : e.1 ∈ l₁ := topoSort_before hsort l₁ v l₂ hsplit e.1 hedge hsrc
          exact hcompleted e.1 (hl₁ e.1 hbefore)
        have hcount : completedPreds (runSched sched (initState dag inputs sorted)) v =
            countInEdges (runSched sched (initState dag inputs sorted)).edges v := by
          unfold completedPreds countInEdges
          apply List.countP_congr
          intro e he
          rw [hE'] at he
          by_cases hev : e.2 = v
          · simp [hev, hpreds e he hev]
          · simp [hev]
        have hle : (mapGet (runSched sched (initState dag inputs sorted)).inDegree v).getD 0
            ≤ 0 := by
          have hb := hinv.indeg_bound v
          rw [hcount] at hb
          omega
        rcases hinv.release_ready v (by rw [hK']; exact hvmem) hle with hT | ⟨hseed, _, _⟩
        · exact hT
        · rw [hq0] at hseed
          cases hseed
      rcases List.mem_cons.mp hu with rfl | hu'
      · exact hvtask
      · refine ih (l₁ ++ [v]) ?_ ?_ u hu'
        · rw [hsplit, List.append_assoc]
          rfl
        · intro w hw
          rcases List.mem_append.mp hw with hw | hw
          · exact hl₁ w hw
          · rw [List.mem_singleton] at hw
            subst hw
            exact hvtask
  intro x hxk
  have hxsorted : x ∈ sorted := (topoSort_mem hsort x).mpr hxk
  have hx : hasTask (runSched sched (initState dag inputs sorted)).tasks x :=
    hspawn sorted [] rfl (by intro u hu; cases hu) x hxsorted
  exact hinv.completed_outputs x (hcompleted x hx)

end InitAndProgress

section ExecuteShape

theorem execute_shape (dag : DAG) (inputs : List (NodeID × List String))
    (sched : List SchedStep) (r : ExecResult) (h : dag.Execute inputs sched = some r) :
    (topoSort (mapKeys dag.nodeMap) dag.edges = none ∧
      r = { outputs := none, finalOutputs := none, err := some .cyclic,
            statusEvents := [], ioEvents := [], statusChanClosed := false,
            ioChanClosed := false, errLog := [] }) ∨
    (∃ sorted, topoSort (mapKeys dag.nodeMap) dag.edges = some sorted ∧
      (runSched sched (initState dag inputs sorted)).drained = true ∧
      ((∃ msg, (runSched sched (initState dag inputs sorted)).execErr = some msg ∧
        r = { outputs := none, finalOutputs := none, err := some (.nodeFailed msg),
              statusEvents := (runSched sched (initState dag inputs sorted)).statusEvents,
              ioEvents := (runSched sched (initState dag inputs sorted)).ioEvents,
              statusChanClosed := true, ioChanClosed := true,
              errLog := (runSched sched (initState dag inputs sorted)).errLog }) ∨
       ((runSched sched (initState dag inputs sorted)).execErr = none ∧
        r = { outputs := some (runSched sched (initState dag inputs sorted)).outputs,
              finalOutputs := some ((dag.GetLeafNodes).map (fun id =>
                (id, (mapGet (runSched sched (initState dag inputs sorted)).outputs
                  id).getD []))),
              err := none,
              statusEvents := (runSched sched (initState dag inputs sorted)).statusEvents,
              ioEvents := (runSched sched (initState dag inputs sorted)).ioEvents,
              statusChanClosed := true, ioChanClosed := true,
              errLog := (runSched sched (initState dag inputs sorted)).errLog }))) := by
  unfold DAG.Execute at h
  rcases hts : topoSort (mapKeys dag.nodeMap) dag.edges with _ | sorted
  · rw [hts] at h
    left
    refine ⟨rfl, ?_⟩
    simpa using h.symm
  · rw [hts] at h
    have h2 : (if (runSched sched (initState dag inputs sorted)).drained then
        some (match (runSched sched (initState dag inputs sorted)).execErr with
          | some msg =>
            { outputs := none, finalOutputs := none, err := some (.nodeFailed msg),
              statusEvents := (runSched sched (initState dag inputs sorted)).statusEvents,
              ioEvents := (runSched sched (initState dag inputs sorted)).ioEvents,
              statusChanClosed := true, ioChanClosed := true,
              errLog := (runSched sched (initState dag inputs sorted)).errLog }
          | none =>
            { outputs := some (runSched sched (initState dag inputs sorted)).outputs,
              finalOutputs := some ((dag.GetLeafNodes).map (fun id =>
                (id, (mapGet (runSched sched (initState dag inputs sorted)).outputs
                  id).getD []))),
              err := none,
              statusEvents := (runSched sched (initState dag inputs sorted)).statusEvents,
              ioEvents := (runSched sched (initState dag inputs sorted)).ioEvents,
              statusChanClosed := true, ioChanClosed := true,
              errLog := (runSched sched (initState dag inputs sorted)).errLog })
      else none) = some r := h
    clear h
    by_cases hdr : (runSched sched (initState dag inputs sorted)).drained = true
    · rw [if_pos hdr] at h2
      right
      refine ⟨sorted, rfl, hdr, ?_⟩
      rcases hex : (runSched sched (initState dag inputs sorted)).execErr with _ | msg
      · rw [hex] at h2
        right
        refine ⟨rfl, ?_⟩
        simpa using h2.symm
      · rw [hex] at h2
        left
        refine ⟨msg, rfl, ?_⟩
        simpa using h2.symm
    · rw [if_neg hdr] at h2
      cases h2

end ExecuteShape

section AddEdgeCases

theorem addEdge_cases (dag : DAG) (frm tgt : NodeID) :
    ((∃ m, (dag.AddEdge frm tgt).2 = some (.missingNode m)) ↔
      (frm ∉ mapKeys dag.nodeMap ∨ tgt ∉ mapKeys dag.nodeMap)) ∧
    ((frm ∉ mapKeys dag.nodeMap ∨ tgt ∉ mapKeys dag.nodeMap) →
      (dag.AddEdge frm tgt).1 = dag) ∧
    (frm ∈ mapKeys dag.nodeMap → tgt ∈ mapKeys dag.nodeMap → frm ≠ tgt →
      (dag.AddEdge frm tgt).2 = none ∧
      (frm, tgt) ∈ (dag.AddEdge frm tgt).1.edges ∧
      (mapGet (dag.AddEdge frm tgt).1.inDegree tgt).getD 0 =
        (mapGet dag.inDegree tgt).getD 0 + 1 ∧
      (dag.AddEdge frm tgt).1.nodeMap = dag.nodeMap ∧
      (dag.AddEdge frm tgt).1.nodeStatus = dag.nodeStatus ∧
      (dag.AddEdge frm tgt).1.maxConcurrent = dag.maxConcurrent) := by
  have hfrm : (mapGet dag.nodeMap frm).isNone = true ↔ frm ∉ mapKeys dag.nodeMap := by
    rw [Option.isNone_iff_eq_none, mapGet_eq_none_iff]
  have htgt : (mapGet dag.nodeMap tgt).isNone = true ↔ tgt ∉ mapKeys dag.nodeMap := by
    rw [Option.isNone_iff_eq_none, mapGet_eq_none_iff]
  by_cases hf : (mapGet dag.nodeMap frm).isNone = true
  · have h1 : dag.AddEdge frm tgt = (dag, some (.missingNode frm)) := by
      unfold DAG.AddEdge
      rw [if_pos hf]
    rw [h1]
    exact ⟨⟨fun _ => Or.inl (hfrm.mp hf), fun _ => ⟨frm, rfl⟩⟩, fun _ => rfl,
      fun hmf _ _ => absurd hmf (hfrm.mp hf)⟩
  · by_cases ht : (mapGet dag.nodeMap tgt).isNone = true
    · have h1 : dag.AddEdge frm tgt = (dag, some (.missingNode tgt)) := by
        unfold DAG.AddEdge
        rw [if_neg hf, if_pos ht]
      rw [h1]
      exact ⟨⟨fun _ => Or.inr (htgt.mp ht), fun _ => ⟨tgt, rfl⟩⟩, fun _ => rfl,
        fun _ hmt _ => absurd hmt (htgt.mp ht)⟩
    · have hfm : frm ∈ mapKeys dag.nodeMap := by
        by_contra hc
        exact hf (hfrm.mpr hc)
      have htm : tgt ∈ mapKeys dag.nodeMap := by
        by_contra hc
        exact ht (htgt.mpr hc)
      by_cases he : frm = tgt
      · have h1 : dag.AddEdge frm tgt = (dag, some .selfEdgeCrash) := by
          unfold DAG.AddEdge
          rw [if_neg hf, if_neg ht, if_pos he]
        rw [h1]
        refine ⟨⟨fun hm => ?_, fun hor => ?_⟩, fun _ => rfl, fun _ _ hne => absurd he hne⟩
        · obtain ⟨m, hm⟩ := hm
          simp at hm
        · exact False.elim (hor.elim (fun hh => hh hfm) (fun hh => hh htm))
      · have h1 : dag.AddEdge frm tgt =
            ({ dag with
              edges := if (frm, tgt) ∈ dag.edges then dag.edges
                else dag.edges ++ [(frm, tgt)],
              inDegree := mapSet dag.inDegree tgt
                ((mapGet dag.inDegree tgt).getD 0 + 1) }, none) := by
          unfold DAG.AddEdge
          rw [if_neg hf, if_neg ht, if_neg he]
        rw [h1]
        refine ⟨⟨fun hm => ?_, fun hor => ?_⟩, fun hor =>
          False.elim (hor.elim (fun hh => hh hfm) (fun hh => hh htm)), ?_⟩
        · obtain ⟨m, hm⟩ := hm
          cases hm
        · exact False.elim (hor.elim (fun hh => hh hfm) (fun hh => hh htm))
        · intro _ _ _
          refine ⟨rfl, ?_, ?_, rfl, rfl, rfl⟩
          · dsimp only
            by_cases hmem : (frm, tgt) ∈ dag.edges
            · rw [if_pos hmem]
              exact hmem
            · rw [if_neg hmem]
              exact List.mem_append_right _ (List.mem_cons_self _ _)
          · dsimp only
            rw [mapGet_mapSet_self]
            rfl

end AddEdgeCases

section ClaimTheorems

/-- C1, counterexample: with two concurrently failing root nodes E1 (error
"errA") and E2 (error "errB"), under the schedule in which E1's goroutine
runs to completion before E2's, the error history shows "errA" was written
first, yet `Execute` returns "errB": the later error overwrote the earlier
one, so the caller does not receive the first error seen. -/
theorem execute_returns_second_error :
    (twoFailingRootsDAG.Execute [] twoFailingRootsSched).map
        (fun r => (r.err, r.errLog, r.outputs, r.finalOutputs)) =
      some (some (.nodeFailed ("errB")), [("errA"), ("errB")], none, none) := by
  rfl

/-- C2, counterexample: on a cyclic graph `Execute` returns at the
`topo.Sort` error before reaching the `close` calls, so neither
observability channel is closed when `Execute` returns. -/
theorem execute_cyclic_channels_not_closed :
    (cyclicDAG.Execute [] []).map
        (fun r => (r.statusChanClosed, r.ioChanClosed, r.err)) =
      some (false, false, some .cyclic) := by
  rfl

/-- C4: a node can be dispatched before a direct predecessor's output is
committed.  In the graph A→P, P→X, Y→X, the seeding loop's unsynchronised
in-degree read dispatches P twice; P's two completions decrement X's
in-degree to zero, so X runs while Y (a direct predecessor) has not run at
all.  X's published IO record shows its assembled inputs were only
["Pout"] — Y's output "Yout" is missing — and the execution nevertheless
returns success. -/
theorem execute_dispatch_missing_predecessor_output :
    (raceOkDAG.Execute [] raceOkSched).map
        (fun r => (r.err, r.ioEvents.filter (fun io => decide (io.ID = ("X"))))) =
      some (none, [⟨("X"), [("Pout")], [("Pout")]⟩]) := by
  rfl

/-- C5: a successor of a failed node can still be released and executed.
In the graph A→P, P→X, Y→X where Y fails, the racy double dispatch of P
decrements X's in-degree twice, releasing X although its predecessor Y has
already failed: the status stream shows Y's Error followed by X's
Running and Completed. -/
theorem execute_successor_of_failed_node_runs :
    (raceFailDAG.Execute [] raceFailSched).map
        (fun r => (r.err, r.statusEvents)) =
      some (some (.nodeFailed ("Y failed")),
        [⟨("A"), .Running⟩, ⟨("A"), .Completed⟩, ⟨("Y"), .Running⟩, ⟨("Y"), .Error⟩,
         ⟨("P"), .Running⟩, ⟨("P"), .Completed⟩, ⟨("P"), .Running⟩, ⟨("P"), .Completed⟩,
         ⟨("X"), .Running⟩, ⟨("X"), .Completed⟩]) := by
  rfl

/-- C7: a node's status is not monotonic under every interleaving.  On the
chain A→B, A's goroutine can complete (dispatching B) before the seeding
loop examines B; the loop then reads B's in-degree as 0 and dispatches B a
second time, so B publishes Running and Completed twice, revisiting
Running after Completed. -/
theorem execute_status_revisits_running :
    (chainDAG.Execute [] chainRaceSched).map
        (fun r => r.statusEvents.filter (fun ev => decide (ev.ID = ("B")))) =
      some [⟨("B"), .Running⟩, ⟨("B"), .Completed⟩,
            ⟨("B"), .Running⟩, ⟨("B"), .Completed⟩] := by
  rfl

/-- C10, counterexample: `AddEdge` on a self-loop between registered nodes
does not complete normally: the underlying gonum `SetEdge` panics on a
self edge, modelled as the `selfEdgeCrash` outcome. -/
theorem addEdge_self_loop_crashes :
    (selfLoopDAG.AddEdge ("a") ("a")).2 = some AddEdgeError.selfEdgeCrash ∧
      ¬((selfLoopDAG.AddEdge ("a") ("a")).2 = none) := by
  exact ⟨rfl, fun h => by cases h⟩


/-- C1, amended: the error cell is written unconditionally, so the error
`Execute` returns is the most recently recorded one (last-writer-wins over
the history of failures), and on failure the caller receives only that
error: both output tables are nil. -/
theorem execute_error_last_writer_wins (dag : DAG)
    (inputs : List (NodeID × List String)) (sched : List SchedStep)
    (r : ExecResult) (msg : String)
    (hexec : dag.Execute inputs sched = some r)
    (herr : r.err = some (.nodeFailed msg)) :
    r.errLog ≠ [] ∧ r.errLog.getLast? = some msg ∧ r.outputs = none ∧
      r.finalOutputs = none := by
  rcases execute_shape dag inputs sched r hexec with ⟨_, rfl⟩ | ⟨sorted, hts, hdr, hcase⟩
  · simp at herr
  · rcases hcase with ⟨m, hm, rfl⟩ | ⟨hnone, rfl⟩
    · have hmm : m = msg := by
        simpa using herr
      subst hmm
      have hb := execErr_runSched sched (initState dag inputs sorted) rfl
      rw [hm] at hb
      refine ⟨?_, hb.symm, rfl, rfl⟩
      intro hnil
      have hnil' : (runSched sched (initState dag inputs sorted)).errLog = [] := hnil
      rw [hnil'] at hb
      cases hb
    · have herr' : (none : Option ExecError) = some (.nodeFailed msg) := herr
      cases herr' 

/-- C1, witness for `execute_error_last_writer_wins` at the two-failing-roots
run. -/
theorem execute_error_last_writer_wins_witness :
    ∃ r, twoFailingRootsDAG.Execute [] twoFailingRootsSched = some r ∧
      r.errLog.getLast? = some ("errB") ∧ r.outputs = none := by
  refine ⟨_, rfl, ?_, ?_⟩
  · exact (execute_error_last_writer_wins twoFailingRootsDAG [] twoFailingRootsSched _
      ("errB") rfl rfl).2.1
  · exact (execute_error_last_writer_wins twoFailingRootsDAG [] twoFailingRootsSched _
      ("errB") rfl rfl).2.2.1

/-- C2, amended: whenever `Execute` returns, both channels are closed iff
the topological sort succeeded: every non-cyclic return path closes both
channels (whether the execution succeeded or a node failed), but the
cyclic-graph early return closes neither. -/
theorem execute_channels_closed_iff_sorted (dag : DAG)
    (inputs : List (NodeID × List String)) (sched : List SchedStep)
    (r : ExecResult) (hexec : dag.Execute inputs sched = some r) :
    (r.statusChanClosed = true ∧ r.ioChanClosed = true) ↔
      ¬(topoSort (mapKeys dag.nodeMap) dag.edges = none) := by
  rcases execute_shape dag inputs sched r hexec with ⟨hts, rfl⟩ | ⟨sorted, hts, hdr, hcase⟩
  · constructor
    · rintro ⟨h1, _⟩
      cases h1
    · intro hne
      exact absurd hts hne
  · constructor
    · intro _
      rw [hts]
      simp
    · intro _
      rcases hcase with ⟨m, hm, rfl⟩ | ⟨hnone, rfl⟩ <;> exact ⟨rfl, rfl⟩

/-- C2, witness for `execute_channels_closed_iff_sorted` on an acyclic
instance. -/
theorem execute_channels_closed_iff_sorted_witness :
    ∃ r, scenADAG.Execute [("textNode", ["hello", "world"])] scenASched = some r ∧
      r.statusChanClosed = true ∧ r.ioChanClosed = true := by
  rcases hexec : scenADAG.Execute [("textNode", ["hello", "world"])] scenASched with _ | r
  · exact absurd hexec (by decide)
  · exact ⟨r, rfl, (execute_channels_closed_iff_sorted scenADAG _ scenASched r
      hexec).mpr (by decide)⟩

/-- C3: on every successful execution of a well-formed graph, the returned
`finalOutputs` has exactly the leaf identifiers of the original edge set
(`GetLeafNodes`, which `Execute` never mutates) as its keys, and is the
restriction of the full output table to those keys — every leaf has a
committed output. -/
theorem execute_terminal_outputs_are_leaf_restriction (dag : DAG)
    (inputs : List (NodeID × List String)) (sched : List SchedStep) (r : ExecResult)
    (hwf : dag.WF) (hexec : dag.Execute inputs sched = some r) (hok : r.err = none) :
    ∃ outs fouts, r.outputs = some outs ∧ r.finalOutputs = some fouts ∧
      mapKeys fouts = dag.GetLeafNodes ∧
      (∀ x ∈ dag.GetLeafNodes, mapGet fouts x = mapGet outs x ∧
        (mapGet outs x).isSome = true) ∧
      (∀ x, x ∉ dag.GetLeafNodes → mapGet fouts x = none) := by
  rcases execute_shape dag inputs sched r hexec with ⟨_, rfl⟩ | ⟨sorted, hts, hdr, hcase⟩
  · cases (show (some ExecError.cyclic : Option ExecError) = none from hok)
  · rcases hcase with ⟨m, hm, rfl⟩ | ⟨hnone, rfl⟩
    · cases (show (some (ExecError.nodeFailed m) : Option ExecError) = none from hok)
    · have hb := execErr_runSched sched (initState dag inputs sorted) rfl
      rw [hnone] at hb
      have herr : (runSched sched (initState dag inputs sorted)).errLog = [] :=
        List.getLast?_eq_none_iff.mp hb.symm
      have hprog := progress dag inputs sorted sched hwf hts hdr herr
      refine ⟨_, _, rfl, rfl, mapKeys_map_pair _ _, ?_, ?_⟩
      · intro x hx
        have hxk : x ∈ mapKeys dag.nodeMap := by
          unfold DAG.GetLeafNodes at hx
          exact (List.mem_filter.mp hx).1
        have hsome := hprog x hxk
        obtain ⟨v, hv⟩ := Option.isSome_iff_exists.mp hsome
        refine ⟨?_, hsome⟩
        rw [mapGet_map_pair_of_mem _ _ _ hx, hv]
        rfl
      · intro x hx
        exact mapGet_map_pair_of_not_mem _ _ _ hx

/-- C3, witness for `execute_terminal_outputs_are_leaf_restriction` on the
first dag_test.go test case. -/
theorem execute_terminal_outputs_are_leaf_restriction_witness :
    ∃ r outs fouts,
      scenADAG.Execute [("textNode", ["hello", "world"])] scenASched = some r ∧
      r.outputs = some outs ∧ r.finalOutputs = some fouts ∧
      mapKeys fouts = scenADAG.GetLeafNodes := by
  rcases hexec : scenADAG.Execute [("textNode", ["hello", "world"])] scenASched with _ | r
  · exact absurd hexec (by decide)
  · have hmap : (scenADAG.Execute [("textNode", ["hello", "world"])] scenASched).map
        (fun r => r.err) = some none := by decide
    rw [hexec] at hmap
    simp at hmap
    obtain ⟨outs, fouts, h1, h2, h3, _, _⟩ :=
      execute_terminal_outputs_are_leaf_restriction scenADAG _ scenASched r (by decide)
        hexec (by simpa using hmap)
    exact ⟨r, outs, fouts, rfl, h1, h2, h3⟩

/-- C6: under every interleaving (and hence at every point during an
`Execute` call, since every prefix of a schedule is a schedule), the number
of registered nodes whose status is Running is at most `maxConcurrent`:
a goroutine holds an admission slot from before it publishes Running until
after it publishes its terminal status, and only `maxConcurrent` slots
exist. -/
theorem execute_running_bounded_by_maxConcurrent (dag : DAG)
    (inputs : List (NodeID × List String)) (sorted : List NodeID)
    (sched : List SchedStep) (hwf : dag.WF)
    (hsort : topoSort (mapKeys dag.nodeMap) dag.edges = some sorted) :
    runningCount (runSched sched (initState dag inputs sorted)) ≤ dag.maxConcurrent := by
  obtain ⟨hinv, hE, hM, hI, hK⟩ :=
    runSched_inv_const sched _ (schedInv_init dag inputs sorted hwf hsort)
  have hM' : (runSched sched (initState dag inputs sorted)).maxConcurrent =
      dag.maxConcurrent := hM
  have h1 : runningCount (runSched sched (initState dag inputs sorted)) ≤
      (runSched sched (initState dag inputs sorted)).tasks.countP
        (fun t => decide (t.phase = .running)) := by
    unfold runningCount
    apply length_filter_le_countP NodeTask.id (fun t => decide (t.phase = .running)) _ _ _
      hinv.keys_nodup
    intro a ha hp
    rw [decide_eq_true_eq] at hp
    obtain ⟨t, ht, hid, hph⟩ := hinv.running_task a hp
    refine ⟨t, ht, hid, ?_⟩
    rw [hph]
    decide
  have h2 : (runSched sched (initState dag inputs sorted)).tasks.countP
      (fun t => decide (t.phase = .running)) ≤
      midCount (runSched sched (initState dag inputs sorted)).tasks := by
    unfold midCount
    apply List.countP_mono_left
    intro t _ hp
    rw [decide_eq_true_eq] at hp
    rw [hp]
    rfl
  have h3 := hinv.mid_eq_sem
  have h4 := hinv.sem_le
  omega

/-- C6, witness for `execute_running_bounded_by_maxConcurrent` on the first
dag_test.go test case with its race-free schedule. -/
theorem execute_running_bounded_by_maxConcurrent_witness :
    runningCount (runSched scenASched (initState scenADAG
      [("textNode", ["hello", "world"])] [("textNode"), ("llmNode")])) ≤
      scenADAG.maxConcurrent :=
  execute_running_bounded_by_maxConcurrent scenADAG _ [("textNode"), ("llmNode")]
    scenASched (by decide) (by decide)

/-- C8: `LLMNode.Execute` fails with the arity message unless the stored
inputs are exactly one element, fails with the emptiness message when that
element is the empty string, and otherwise calls the client with it: on
success it stores the one-element output, on failure it returns the
client's error unchanged and stores nothing. -/
theorem llmNode_execute_contract (n : LLMNode) :
    (n.inputs.length ≠ 1 →
      n.Execute = (n, some ("input must be exactly 1, got " ++
        toString n.inputs.length))) ∧
    (n.inputs = [("")] → n.Execute = (n, some ("input must not be empty"))) ∧
    (∀ input response, n.inputs = [input] → input ≠ ("") →
      n.llmClient input = .ok response →
      n.Execute = ({ n with outputs := [response] }, none)) ∧
    (∀ input err, n.inputs = [input] → input ≠ ("") →
      n.llmClient input = .error err → n.Execute = (n, some err)) := by
  refine ⟨?_, ?_, ?_, ?_⟩
  · intro hlen
    unfold LLMNode.Execute
    rcases hin : n.inputs with _ | ⟨a, _ | ⟨b, l⟩⟩
    · rfl
    · rw [hin] at hlen
      simp at hlen
    · rfl
  · intro hin
    unfold LLMNode.Execute
    rw [hin]
    rfl
  · intro input response hin hne hcl
    have hstep : n.Execute = (if input.length = 0 then
        (n, some ("input must not be empty"))
      else
        match n.llmClient input with
        | .ok response => ({ n with outputs := [response] }, none)
        | .error err => (n, some err)) := by
      unfold LLMNode.Execute
      rw [hin]
    have hlen : ¬(input.length = 0) := by
      intro h0
      apply hne
      obtain ⟨l⟩ := input
      have hl : l = [] := List.eq_nil_of_length_eq_zero h0
      rw [hl]
    rw [hstep, if_neg hlen, hcl]
  · intro input err hin hne hcl
    have hstep : n.Execute = (if input.length = 0 then
        (n, some ("input must not be empty"))
      else
        match n.llmClient input with
        | .ok response => ({ n with outputs := [response] }, none)
        | .error err => (n, some err)) := by
      unfold LLMNode.Execute
      rw [hin]
    have hlen : ¬(input.length = 0) := by
      intro h0
      apply hne
      obtain ⟨l⟩ := input
      have hl : l = [] := List.eq_nil_of_length_eq_zero h0
      rw [hl]
    rw [hstep, if_neg hlen, hcl]

/-- C8, witness for `llmNode_execute_contract` on the success branch with
the mock client. -/
theorem llmNode_execute_contract_witness :
    LLMNode.Execute
        { name := ("llm"), inputs := [("hi")], outputs := [],
          llmClient := mockClient } =
      ({ name := ("llm"), inputs := [("hi")], outputs := [("mock response: hi")],
          llmClient := mockClient }, none) :=
  (llmNode_execute_contract
    { name := ("llm"), inputs := [("hi")], outputs := [],
      llmClient := mockClient }).2.2.1 ("hi") ("mock response: hi") rfl (by decide) rfl

/-- C9: `AddEdge` returns a missing-node error iff one of the endpoints is
unregistered (in either position), and then leaves the DAG unchanged; when
both endpoints are registered and distinct it succeeds, the edge is in the
edge set and exactly one is added to the target's in-degree, with the other
tables untouched. -/
theorem addEdge_contract (dag : DAG) (frm tgt : NodeID) :
    ((∃ m, (dag.AddEdge frm tgt).2 = some (.missingNode m)) ↔
      (frm ∉ mapKeys dag.nodeMap ∨ tgt ∉ mapKeys dag.nodeMap)) ∧
    ((frm ∉ mapKeys dag.nodeMap ∨ tgt ∉ mapKeys dag.nodeMap) →
      (dag.AddEdge frm tgt).1 = dag) ∧
    (frm ∈ mapKeys dag.nodeMap → tgt ∈ mapKeys dag.nodeMap → frm ≠ tgt →
      (dag.AddEdge frm tgt).2 = none ∧
      (frm, tgt) ∈ (dag.AddEdge frm tgt).1.edges ∧
      (mapGet (dag.AddEdge frm tgt).1.inDegree tgt).getD 0 =
        (mapGet dag.inDegree tgt).getD 0 + 1 ∧
      (dag.AddEdge frm tgt).1.nodeMap = dag.nodeMap ∧
      (dag.AddEdge frm tgt).1.nodeStatus = dag.nodeStatus ∧
      (dag.AddEdge frm tgt).1.maxConcurrent = dag.maxConcurrent) :=
  addEdge_cases dag frm tgt

/-- C9, witness for `addEdge_contract`: a successful insertion and a
rejected edge towards an unregistered node. -/
theorem addEdge_contract_witness :
    (twoFailingRootsDAG.AddEdge ("E1") ("E2")).2 = none ∧
      (mapGet (twoFailingRootsDAG.AddEdge ("E1") ("E2")).1.inDegree ("E2")).getD 0 =
        (mapGet twoFailingRootsDAG.inDegree ("E2")).getD 0 + 1 ∧
      (twoFailingRootsDAG.AddEdge ("E1") ("Ghost")).1 = twoFailingRootsDAG := by
  refine ⟨?_, ?_, ?_⟩
  · exact ((addEdge_contract twoFailingRootsDAG ("E1") ("E2")).2.2 (by decide) (by decide)
      (by decide)).1
  · exact ((addEdge_contract twoFailingRootsDAG ("E1") ("E2")).2.2 (by decide) (by decide)
      (by decide)).2.2.1
  · exact (addEdge_contract twoFailingRootsDAG ("E1") ("Ghost")).2.1 (Or.inr (by decide))

/-- C10, amended: `AddEdge` applies no cycle check of its own — any edge
between two distinct registered nodes is accepted, and a cyclic graph is
rejected by the topological sort inside `Execute`, which returns the cycle
error before any node runs (no status or IO event, no outputs) — but a
direct self-loop does not complete normally: gonum's `SetEdge` panics on
it, so `AddEdge(id, id)` crashes instead of returning. -/
theorem addEdge_cycle_policy :
    (∀ (dag : DAG) (frm tgt : NodeID), frm ∈ mapKeys dag.nodeMap →
      tgt ∈ mapKeys dag.nodeMap → frm ≠ tgt → (dag.AddEdge frm tgt).2 = none) ∧
    (∀ (dag : DAG) (inputs : List (NodeID × List String)) (sched : List SchedStep)
      (r : ExecResult), dag.Execute inputs sched = some r →
      topoSort (mapKeys dag.nodeMap) dag.edges = none →
      r.err = some .cyclic ∧ r.statusEvents = [] ∧ r.ioEvents = [] ∧
        r.outputs = none ∧ r.finalOutputs = none) := by
  constructor
  · intro dag frm tgt hf ht hne
    exact ((addEdge_cases dag frm tgt).2.2 hf ht hne).1
  · intro dag inputs sched r hexec hts
    rcases execute_shape dag inputs sched r hexec with ⟨_, rfl⟩ | ⟨sorted, hts2, _, _⟩
    · exact ⟨rfl, rfl, rfl, rfl, rfl⟩
    · rw [hts] at hts2
      cases hts2

/-- C10, witness for `addEdge_cycle_policy`: a distinct-endpoint edge is
accepted, and the two-node cycle makes `Execute` abort with the sort error
and no events. -/
theorem addEdge_cycle_policy_witness :
    ((selfLoopDAG.AddNode ("b") (.text (NewTextNode ("b")
        (okProcessor ("y"))))).AddEdge ("a") ("b")).2 = none ∧
    ∃ r, cyclicDAG.Execute [] [] = some r ∧ r.err = some .cyclic ∧
      r.statusEvents = [] := by
  constructor
  · exact addEdge_cycle_policy.1 _ ("a") ("b") (by decide) (by decide) (by decide)
  · rcases hexec : cyclicDAG.Execute [] [] with _ | r
    · exact absurd hexec (by decide)
    · refine ⟨r, rfl, ?_, ?_⟩
      · exact (addEdge_cycle_policy.2 cyclicDAG [] [] r hexec (by decide)).1
      · exact (addEdge_cycle_policy.2 cyclicDAG [] [] r hexec (by decide)).2.1

end ClaimTheorems
